import Mathlib

/-!
Verification development for the streaming tag parser and approval state
machine of the prompt-manager chat frontend
(`src/prompt_manager/frontend/components/PromptVariableModal.tsx`).

Strings are modelled as `List Char`.  The JavaScript regular expressions
(`TAG_REGEX`, `NAME_ATTR_REGEX`, `ARGUMENT_REGEX`, `DEEP_ARG_REGEX`, the
attribute lookup in `getAttr`, and the three sanitizer replacements) are
hand-translated into scanning functions that follow the backtracking
semantics of the JavaScript engine on those concrete patterns.  Fallible
JavaScript operations are modelled with `Option`; the one uncaught throw
site of the parser (reading `.match` of an undefined `tagContent`) is
modelled with `Except JsError`.
-/

namespace PromptManager

/-- Shorthand: the character list of a string literal. -/
def lc (s : String) : List Char := s.data

/-- Double-quote character. -/
def cDq : Char := Char.ofNat 34

/-- Single-quote character. -/
def cSq : Char := Char.ofNat 39

/-- Opening curly brace character. -/
def cLb : Char := Char.ofNat 123

/-- Closing curly brace character. -/
def cRb : Char := Char.ofNat 125

/-- Backslash character. -/
def cBs : Char := Char.ofNat 92

/-- The JavaScript whitespace class: the set matched by `\s` in a regex and
trimmed by `String.prototype.trim` (ECMAScript WhiteSpace and
LineTerminator code points). -/
def jsWs (c : Char) : Bool :=
  c = ' ' || c = '\t' || c = '\n' || c = '\r' ||
  c = Char.ofNat 11 || c = Char.ofNat 12 ||
  c = Char.ofNat 0xa0 || c = Char.ofNat 0x1680 ||
  (0x2000 ≤ c.toNat && c.toNat ≤ 0x200a) ||
  c = Char.ofNat 0x2028 || c = Char.ofNat 0x2029 ||
  c = Char.ofNat 0x202f || c = Char.ofNat 0x205f ||
  c = Char.ofNat 0x3000 || c = Char.ofNat 0xfeff

/-- Model of JavaScript `String.prototype.trim`: drop `jsWs` characters from
both ends. -/
def jsTrim (s : List Char) : List Char :=
  ((s.dropWhile jsWs).reverse.dropWhile jsWs).reverse

/-- The four segment kinds the parser pushes: `'text'`, `'thought'`,
`'tool'`, `'pending'` (`tool_result` segments are dropped and `answer`
segments are re-typed as text before being pushed). -/
inductive PartKind where
  | text
  | thought
  | tool
  | pending
deriving DecidableEq, Repr

/-- One parsed segment, as pushed onto `parts` in `parseMessageContent`:
`{ type, content, isStreaming? }`.  `isStreaming = none` models an absent
`isStreaming` field. -/
structure Part where
  kind : PartKind
  content : List Char
  isStreaming : Option Bool
deriving DecidableEq, Repr

/-- The one uncaught exception the parser can raise: the `TypeError` from
evaluating `tagContent.match` when `tagContent` is `undefined` (a
`tool_pending` tag whose attribute captures are both falsy). -/
inductive JsError where
  | typeError
deriving DecidableEq, Repr

instance {ε α : Type} [DecidableEq ε] [DecidableEq α] : DecidableEq (Except ε α) :=
  fun a b =>
    match a, b with
    | .ok x, .ok y => decidable_of_iff (x = y) (by simp)
    | .error x, .error y => decidable_of_iff (x = y) (by simp)
    | .ok _, .error _ => isFalse (by simp)
    | .error _, .ok _ => isFalse (by simp)

/-- JavaScript object property write `obj[k] = v` for string-keyed records:
an existing key keeps its position and gets the new value, a fresh key is
appended in insertion order. -/
def assocInsert (l : List (List Char × α)) (k : List Char) (v : α) :
    List (List Char × α) :=
  match l with
  | [] => [(k, v)]
  | (k0, v0) :: t => if k0 = k then (k, v) :: t else (k0, v0) :: assocInsert t k v

/-- JavaScript object property read `obj[k]`. -/
def assocLookup (l : List (List Char × α)) (k : List Char) : Option α :=
  match l with
  | [] => none
  | (k0, v0) :: t => if k0 = k then some v0 else assocLookup t k

/-- Model of JavaScript `String.prototype.includes` on character lists. -/
def containsSub (pat : List Char) : List Char → Bool
  | [] => pat.isEmpty
  | c :: t => pat.isPrefixOf (c :: t) || containsSub pat t

/-- Characters refused by the regex `.` metacharacter (no `s` flag): the
ECMAScript LineTerminator set. -/
def dotFails (c : Char) : Bool :=
  c = '\n' || c = '\r' || c = Char.ofNat 0x2028 || c = Char.ofNat 0x2029

/-- Is the character a single or double quote (the `["']` class)? -/
def isQuoteCh (c : Char) : Bool := c = cDq || c = cSq

/-- Scan the lazy group `(.*?)["']` of the attribute regexes: collect
non-LineTerminator characters up to the first quote of either kind.
Returns `none` when a LineTerminator or the end of input intervenes
(the regex then fails at this start position). -/
def attrValScan : List Char → Option (List Char)
  | [] => none
  | c :: t =>
    if isQuoteCh c then some []
    else if dotFails c then none
    else (attrValScan t).map (c :: ·)

/-- One attempt of `name=["'](.*?)["']` anchored at the current position. -/
def getAttrHere (name : List Char) (s : List Char) : Option (List Char) :=
  if (name ++ ['=']).isPrefixOf s then
    match s.drop (name.length + 1) with
    | [] => none
    | q :: u => if isQuoteCh q then attrValScan u else none
  else none

/-- Model of the source `getAttr` helper: match the attribute regex
`name=["'](.*?)["']` (built per attribute name and cached in
`ATTR_REGEX_CACHE`; the compiled regex is a pure function of the name, so
the lookup result is too) against the tag content, returning capture 1 of
the first match. -/
def getAttr (name : List Char) : List Char → Option (List Char)
  | [] => none
  | c :: t =>
    match getAttrHere name (c :: t) with
    | some v => some v
    | none => getAttr name t

/-- The tag-name alternation of `TAG_REGEX`, in source order (order matters:
the regex engine commits to the first name that lets the rest of the
alternative succeed). -/
def tagNames : List (List Char) :=
  [lc "thought", lc "think", lc "tool_call", lc "tool_pending",
   lc "tool_result", lc "tool", lc "answer"]

/-- Scan of the optional inner-content group
`(?:([^<]*(?:<(?![\/]?\1)[^<]*)*?)(?:<\/\1>|$))?` of `TAG_REGEX` for tag
name `T`, starting right after the opening `>`.

Backtracking analysis of the group: the engine walks from `<` to `<`;
at each `<` it first tries the closing alternative `</T>` (success, content
final), otherwise the negative lookahead `(?![\/]?\1)` makes the whole
group fail as soon as the `<` starts `T` or `/T` (no shorter match can
succeed, so the optional group matches empty); any other `<` is crossed.
Reaching the end of input matches `$` (streaming content).
Returns `some (inner, closedTag, rest)` or `none` when the group matches
empty. -/
def contentScan (T : List Char) : List Char → Option (List Char × Bool × List Char)
  | [] => some ([], false, [])
  | c :: t =>
    if c = '<' then
      if (['/'] ++ T ++ ['>']).isPrefixOf t then
        some ([], true, t.drop (T.length + 2))
      else if T.isPrefixOf t || (['/'] ++ T).isPrefixOf t then
        none
      else
        (contentScan T t).map (fun r => (c :: r.1, r.2.1, r.2.2))
    else
      (contentScan T t).map (fun r => (c :: r.1, r.2.1, r.2.2))

/-- Scan of `(?:\s+([^>]*?))?>` after a candidate tag name: either the
next character closes the tag at once (no attribute capture), or a
nonempty whitespace run is followed by the attribute capture, which runs
up to the first `>` (the lazy `[^>]*?` is forced there).  `none` means
this tag-name alternative fails and the engine backtracks to the next
name. -/
def tryAttrs : List Char → Option (Option (List Char) × List Char)
  | [] => none
  | c :: t =>
    if c = '>' then some (none, t)
    else if jsWs c then
      let s4 := (c :: t).dropWhile jsWs
      match s4.dropWhile (· ≠ '>') with
      | _ :: r2 => some (some (s4.takeWhile (· ≠ '>')), r2)
      | [] => none
    else none

/-- Try the tag names of the first `TAG_REGEX` alternative in order against
the text following `<`; the first name that is a prefix and whose
`(?:\s+([^>]*?))?>` continuation succeeds wins. -/
def pickName (names : List (List Char)) (s1 : List Char) :
    Option (List Char × Option (List Char) × List Char) :=
  match names with
  | [] => none
  | T :: ns =>
    if T.isPrefixOf s1 then
      match tryAttrs (s1.drop T.length) with
      | some (attrs, afterGt) => some (T, attrs, afterGt)
      | none => pickName ns s1
    else pickName ns s1

/-- One match of `TAG_REGEX`: the full match text and the five capture
groups (`none` models an undefined group). -/
structure TagMatch where
  full : List Char
  g1 : Option (List Char)
  g2 : Option (List Char)
  g3 : Option (List Char)
  g4 : Option (List Char)
  g5 : Option (List Char)
deriving DecidableEq, Repr

/-- Lazy scan of `([^>]*?)\s*\/>` in the second `TAG_REGEX` alternative:
at each position first try the continuation (maximal `\s*` run followed by
the literal `/>`), otherwise extend the capture by one non-`>` character. -/
def selfCloseScan (acc : List Char) : List Char → Option (List Char × List Char)
  | [] => none
  | c :: t =>
    if (lc "/>").isPrefixOf ((c :: t).dropWhile jsWs) then
      some (acc, ((c :: t).dropWhile jsWs).drop 2)
    else if c = '>' then none
    else selfCloseScan (acc ++ [c]) t

/-- The second `TAG_REGEX` alternative `<(tool_pending)\s+([^>]*?)\s*\/>`,
tried only when the first alternative fails at this `<`. -/
def matchAlt2 (s1 : List Char) : Option (List Char × List Char) :=
  if (lc "tool_pending").isPrefixOf s1 then
    match s1.drop 12 with
    | [] => none
    | c :: _ =>
      if jsWs c then selfCloseScan [] ((s1.drop 12).dropWhile jsWs)
      else none
  else none

/-- Attempt `TAG_REGEX` anchored at the head of `s`.  Returns the match
data and the remaining input after the match. -/
def matchAt : List Char → Option (TagMatch × List Char)
  | [] => none
  | c :: s1 =>
    if c = '<' then
      match pickName tagNames s1 with
      | some (T, attrs, afterGt) =>
        match contentScan T afterGt with
        | some (inner, _closed, rest) =>
          some ({ full := (c :: s1).take ((c :: s1).length - rest.length),
                  g1 := some T, g2 := attrs, g3 := some inner,
                  g4 := none, g5 := none }, rest)
        | none =>
          some ({ full := (c :: s1).take ((c :: s1).length - afterGt.length),
                  g1 := some T, g2 := attrs, g3 := none,
                  g4 := none, g5 := none }, afterGt)
      | none =>
        match matchAlt2 s1 with
        | some (b, rest) =>
          some ({ full := (c :: s1).take ((c :: s1).length - rest.length),
                  g1 := none, g2 := none, g3 := none,
                  g4 := some (lc "tool_pending"), g5 := some b }, rest)
        | none => none
    else none

/-- Model of `tagRegex.exec` resuming from the current position: find the
leftmost position where `TAG_REGEX` matches.  Returns the text before the
match, the match, and the remaining input. -/
def findMatch : List Char → Option (List Char × TagMatch × List Char)
  | [] => none
  | c :: t =>
    match matchAt (c :: t) with
    | some (md, rest) => some ([], md, rest)
    | none =>
      match findMatch t with
      | some (pre, md, rest) => some (c :: pre, md, rest)
      | none => none

/-! ### JSON values, `JSON.parse` and `JSON.stringify` -/

/-- JSON values as produced by `JSON.parse`.  A numeric literal keeps its
source token verbatim; on the canonical integer tokens exercised here this
agrees with the `ToString` of the parsed number that `JSON.stringify`
would emit. -/
inductive Json where
  | jnull
  | jbool (b : Bool)
  | jnum (raw : List Char)
  | jstr (s : List Char)
  | jarr (xs : List Json)
  | jobj (kvs : List (List Char × Json))

/-- Lowercase hexadecimal digit. -/
def hexDigit (n : Nat) : Char :=
  if n < 10 then Char.ofNat (48 + n) else Char.ofNat (87 + n)

/-- Escape one character the way `JSON.stringify` quotes string data. -/
def jsonEscapeChar (c : Char) : List Char :=
  if c = cDq then [cBs, cDq]
  else if c = cBs then [cBs, cBs]
  else if c = Char.ofNat 8 then [cBs, 'b']
  else if c = '\t' then [cBs, 't']
  else if c = '\n' then [cBs, 'n']
  else if c = Char.ofNat 12 then [cBs, 'f']
  else if c = '\r' then [cBs, 'r']
  else if c.toNat < 32 then
    [cBs, 'u', hexDigit (c.toNat / 4096 % 16), hexDigit (c.toNat / 256 % 16),
     hexDigit (c.toNat / 16 % 16), hexDigit (c.toNat % 16)]
  else [c]

/-- Quote a string as `JSON.stringify` does. -/
def jsonQuoteStr (s : List Char) : List Char :=
  [cDq] ++ (s.map jsonEscapeChar).flatten ++ [cDq]

/-- Decimal digit test restricted to ASCII. -/
def isDigitCh (c : Char) : Bool := 48 ≤ c.toNat && c.toNat ≤ 57

/-- Numeric value of an ASCII digit string. -/
def natOfDigits (s : List Char) : Nat :=
  s.foldl (fun a c => a * 10 + (c.toNat - 48)) 0

/-- Is this property key an array index in the ECMAScript sense (canonical
decimal numeral below 2^32 - 1)?  Such keys are serialized first, in
ascending numeric order, by `JSON.stringify`. -/
def isArrayIndexKey (k : List Char) : Bool :=
  !k.isEmpty && k.all isDigitCh &&
  (k = ['0'] || k.head? ≠ some '0') &&
  natOfDigits k < 4294967295

/-- One insertion step of the numeric-key insertion sort. -/
def insortStep (kv : List Char × α) : List (List Char × α) → List (List Char × α)
  | [] => [kv]
  | kv0 :: t =>
    if natOfDigits kv.1 ≤ natOfDigits kv0.1 then kv :: kv0 :: t
    else kv0 :: insortStep kv t

/-- Insertion sort of already-serialized members by numeric key value. -/
def insortByKey : List (List Char × α) → List (List Char × α)
  | [] => []
  | kv :: t => insortStep kv (insortByKey t)

/-- ECMAScript own-property enumeration order: array-index keys first in
ascending numeric order, then the remaining string keys in insertion
order. -/
def orderKeys (kvs : List (List Char × α)) : List (List Char × α) :=
  insortByKey (kvs.filter (fun kv => isArrayIndexKey kv.1)) ++
    kvs.filter (fun kv => !isArrayIndexKey kv.1)

/-- Join serialized items with commas. -/
def joinComma (xs : List (List Char)) : List Char :=
  (xs.intersperse [',']).flatten

/-- Model of `JSON.stringify` (no indent argument).  The `fuel` bounds the
recursion depth; every call site passes a fuel strictly larger than the
depth of the value being serialized, so the `fuel = 0` branch is never
taken there. -/
def jsonStringify : Nat → Json → List Char
  | 0, _ => []
  | _ + 1, .jnull => lc "null"
  | _ + 1, .jbool true => lc "true"
  | _ + 1, .jbool false => lc "false"
  | _ + 1, .jnum raw => raw
  | _ + 1, .jstr s => jsonQuoteStr s
  | fuel + 1, .jarr xs =>
    ['['] ++ joinComma (xs.map (jsonStringify fuel)) ++ [']']
  | fuel + 1, .jobj kvs =>
    [cLb] ++
      joinComma ((orderKeys kvs).map
        (fun kv => jsonQuoteStr kv.1 ++ [':'] ++ jsonStringify fuel kv.2)) ++
      [cRb]

/-- JSON (RFC 8259) insignificant whitespace, as accepted by `JSON.parse`. -/
def jsonWsCh (c : Char) : Bool := c = ' ' || c = '\t' || c = '\n' || c = '\r'

/-- Value of one hexadecimal digit, for `\u` escapes. -/
def hexVal (c : Char) : Option Nat :=
  if 48 ≤ c.toNat && c.toNat ≤ 57 then some (c.toNat - 48)
  else if 97 ≤ c.toNat && c.toNat ≤ 102 then some (c.toNat - 87)
  else if 65 ≤ c.toNat && c.toNat ≤ 70 then some (c.toNat - 55)
  else none

/-- Parse a JSON string body after the opening quote, returning the decoded
characters and the input after the closing quote. -/
def jsonParseStrBody : List Char → Option (List Char × List Char)
  | [] => none
  | c :: t =>
    if c = cDq then some ([], t)
    else if c = cBs then
      match t with
      | [] => none
      | e :: u =>
        if e = cDq then (jsonParseStrBody u).map (fun r => (cDq :: r.1, r.2))
        else if e = cBs then (jsonParseStrBody u).map (fun r => (cBs :: r.1, r.2))
        else if e = '/' then (jsonParseStrBody u).map (fun r => ('/' :: r.1, r.2))
        else if e = 'b' then (jsonParseStrBody u).map (fun r => (Char.ofNat 8 :: r.1, r.2))
        else if e = 'f' then (jsonParseStrBody u).map (fun r => (Char.ofNat 12 :: r.1, r.2))
        else if e = 'n' then (jsonParseStrBody u).map (fun r => ('\n' :: r.1, r.2))
        else if e = 'r' then (jsonParseStrBody u).map (fun r => ('\r' :: r.1, r.2))
        else if e = 't' then (jsonParseStrBody u).map (fun r => ('\t' :: r.1, r.2))
        else if e = 'u' then
          match u with
          | h1 :: h2 :: h3 :: h4 :: v =>
            match hexVal h1, hexVal h2, hexVal h3, hexVal h4 with
            | some a, some b, some c3, some d =>
              let n := ((a * 16 + b) * 16 + c3) * 16 + d
              if 0xd800 ≤ n && n ≤ 0xdfff then none
              else (jsonParseStrBody v).map (fun r => (Char.ofNat n :: r.1, r.2))
            | _, _, _, _ => none
          | _ => none
        else none
    else if c.toNat < 32 then none
    else (jsonParseStrBody t).map (fun r => (c :: r.1, r.2))

/-- Scan the exponent part of a JSON number, if present. -/
def jsonScanExp (u : List Char) : List Char × List Char :=
  match u with
  | e :: v =>
    if e = 'e' || e = 'E' then
      let (sg, v2) :=
        match v with
        | '+' :: w => (['+'], w)
        | '-' :: w => (['-'], w)
        | _ => (([] : List Char), v)
      let ds := v2.takeWhile isDigitCh
      if ds.isEmpty then ([], u)
      else ([e] ++ sg ++ ds, v2.dropWhile isDigitCh)
    else ([], u)
  | [] => ([], u)

/-- Scan the fraction and exponent parts of a JSON number, if present. -/
def jsonScanFracExp (u : List Char) : List Char × List Char :=
  match u with
  | '.' :: v =>
    let ds := v.takeWhile isDigitCh
    if ds.isEmpty then jsonScanExp u
    else
      let (ex, rest) := jsonScanExp (v.dropWhile isDigitCh)
      (['.'] ++ ds ++ ex, rest)
  | _ => jsonScanExp u

/-- Scan a JSON number token (sign, integer, fraction, exponent), returning
the raw token and the remaining input. -/
def jsonScanNumber (s : List Char) : Option (List Char × List Char) :=
  let (sign, s1) :=
    match s with
    | '-' :: t => (['-'], t)
    | _ => (([] : List Char), s)
  match s1 with
  | [] => none
  | c :: t =>
    if c = '0' then
      let (fe, rest) := jsonScanFracExp t
      some (sign ++ ['0'] ++ fe, rest)
    else if isDigitCh c && c ≠ '0' then
      let ds := t.takeWhile isDigitCh
      let t2 := t.dropWhile isDigitCh
      let (fe, rest) := jsonScanFracExp t2
      some (sign ++ [c] ++ ds ++ fe, rest)
    else none

mutual

/-- Recursive-descent model of `JSON.parse` on a value, fuel-bounded (every
recursive call consumes input, so fuel `length + 1` suffices at top
level).  Skips leading insignificant whitespace. -/
def jsonParseVal : Nat → List Char → Option (Json × List Char)
  | 0, _ => none
  | fuel + 1, s =>
    let s := s.dropWhile jsonWsCh
    match s with
    | [] => none
    | c :: t =>
      if c = cDq then
        (jsonParseStrBody t).map (fun r => (Json.jstr r.1, r.2))
      else if c = cLb then
        jsonParseMembers fuel [] (t.dropWhile jsonWsCh) true
      else if c = '[' then
        jsonParseElems fuel [] (t.dropWhile jsonWsCh) true
      else if (lc "null").isPrefixOf s then some (Json.jnull, s.drop 4)
      else if (lc "true").isPrefixOf s then some (Json.jbool true, s.drop 4)
      else if (lc "false").isPrefixOf s then some (Json.jbool false, s.drop 5)
      else
        (jsonScanNumber s).map (fun r => (Json.jnum r.1, r.2))

/-- Parse the members of a JSON object after `{`.  `first` is true before
the first member; duplicate keys follow `CreateDataProperty` semantics
(`assocInsert`). -/
def jsonParseMembers (fuel : Nat) (acc : List (List Char × Json))
    (s : List Char) (first : Bool) : Option (Json × List Char) :=
  match fuel with
  | 0 => none
  | fuel + 1 =>
    match s with
    | [] => none
    | c :: t =>
      if c = cRb && first then some (Json.jobj acc.reverse, t)
      else
        let s2 := if first then s else
          match s with
          | ',' :: u => u.dropWhile jsonWsCh
          | _ => []
        if !first && (s.head? ≠ some ',') then
          if c = cRb then some (Json.jobj acc.reverse, t) else none
        else
          match s2 with
          | q :: u =>
            if q = cDq then
              match jsonParseStrBody u with
              | none => none
              | some (k, u2) =>
                match u2.dropWhile jsonWsCh with
                | ':' :: u3 =>
                  match jsonParseVal fuel u3 with
                  | none => none
                  | some (v, u4) =>
                    jsonParseMembers fuel
                      ((assocInsert acc.reverse k v).reverse)
                      (u4.dropWhile jsonWsCh) false
                | _ => none
            else none
          | [] => none

/-- Parse the elements of a JSON array after `[`. -/
def jsonParseElems (fuel : Nat) (acc : List Json) (s : List Char)
    (first : Bool) : Option (Json × List Char) :=
  match fuel with
  | 0 => none
  | fuel + 1 =>
    match s with
    | [] => none
    | c :: t =>
      if c = ']' && first then some (Json.jarr acc.reverse, t)
      else if !first && c = ']' then some (Json.jarr acc.reverse, t)
      else
        let s2 := if first then s else
          match s with
          | ',' :: u => u
          | _ => []
        if !first && (s.head? ≠ some ',') then none
        else
          match jsonParseVal fuel s2 with
          | none => none
          | some (v, u) => jsonParseElems fuel (v :: acc) (u.dropWhile jsonWsCh) false

end

/-- Model of `JSON.parse`: parse one value, require only whitespace after
it. -/
def jsonParse (s : List Char) : Option Json :=
  match jsonParseVal (s.length + 1) s with
  | some (j, rest) => if rest.dropWhile jsonWsCh = [] then some j else none
  | none => none

/-! ### `atob` (base64 decoding to a binary string) -/

/-- HTML ASCII whitespace, removed by the forgiving-base64 decoder. -/
def asciiWsCh (c : Char) : Bool :=
  c = '\t' || c = '\n' || c = Char.ofNat 12 || c = '\r' || c = ' '

/-- Value of one base64 alphabet character. -/
def b64Val (c : Char) : Option Nat :=
  if 65 ≤ c.toNat && c.toNat ≤ 90 then some (c.toNat - 65)
  else if 97 ≤ c.toNat && c.toNat ≤ 122 then some (c.toNat - 71)
  else if 48 ≤ c.toNat && c.toNat ≤ 57 then some (c.toNat + 4)
  else if c = '+' then some 62
  else if c = '/' then some 63
  else none

/-- Bit accumulator of the base64 decoder: collect 6 bits per character and
emit a byte (as a latin-1 character, as `atob` does) whenever 8 bits are
available; up to 4 leftover bits at the end are discarded. -/
def atobBits (buf bits : Nat) : List Char → Option (List Char)
  | [] => some []
  | c :: t =>
    match b64Val c with
    | none => none
    | some v =>
      let buf2 := buf * 64 + v
      let bits2 := bits + 6
      if bits2 ≥ 8 then
        (atobBits (buf2 % 2 ^ (bits2 - 8)) (bits2 - 8) t).map
          (fun r => Char.ofNat (buf2 / 2 ^ (bits2 - 8)) :: r)
      else atobBits buf2 bits2 t

/-- Model of `atob`: the HTML forgiving-base64 decode.  Removes ASCII
whitespace, strips up to two trailing `=` when the length is a multiple of
four, rejects a length congruent to 1 mod 4 and any character outside the
alphabet, and decodes the rest; `none` models the thrown
`InvalidCharacterError`. -/
def atob (s : List Char) : Option (List Char) :=
  let d := s.filter (fun c => !asciiWsCh c)
  let d2 :=
    if d.length % 4 = 0 then
      if (lc "==").isSuffixOf d then d.dropLast.dropLast
      else if (['=']).isSuffixOf d then d.dropLast
      else d
    else d
  if d2.length % 4 = 1 then none
  else atobBits 0 0 d2

/-! ### Tool argument extraction
(`NAME_ATTR_REGEX`, `ARGUMENT_REGEX`, `DEEP_ARG_REGEX`) -/

/-- Candidate splits of the lazy group `(.*?)["']`: pairs of (captured
text, input after the consumed quote), in the order the backtracking
engine tries them.  The capture may run past a quote when a later
continuation is the first to succeed, but never past a LineTerminator
(which `.` refuses). -/
def lazyQuoteSplits : List Char → List (List Char × List Char)
  | [] => []
  | c :: t =>
    (if isQuoteCh c then [(([] : List Char), t)] else []) ++
      (if dotFails c then [] else (lazyQuoteSplits t).map (fun r => (c :: r.1, r.2)))

/-- Continuation of `ARGUMENT_REGEX` after the name capture:
`\s+value=["'](.*?)["']\s*\/?>`. -/
def argContinuation (v1 : List Char) (rest1 : List Char) :
    Option (List Char × List Char × List Char) :=
  match rest1 with
  | [] => none
  | c :: _ =>
    if jsWs c then
      let a4 := rest1.dropWhile jsWs
      if (lc "value=").isPrefixOf a4 then
        match a4.drop 6 with
        | q :: body2 =>
          if isQuoteCh q then
            (lazyQuoteSplits body2).findSome? (fun cand2 =>
              let a6 := cand2.2.dropWhile jsWs
              if (lc "/>").isPrefixOf a6 then some (v1, cand2.1, a6.drop 2)
              else if a6.head? = some '>' then some (v1, cand2.1, a6.drop 1)
              else none)
          else none
        | [] => none
      else none
    else none

/-- Attempt of `ARGUMENT_REGEX`
(`<argument\s+name=["'](.*?)["']\s+value=["'](.*?)["']\s*\/?>`) anchored at
the head of `s`; returns name capture, value capture and the rest. -/
def matchArgAt (s : List Char) : Option (List Char × List Char × List Char) :=
  if (lc "<argument").isPrefixOf s then
    match s.drop 9 with
    | [] => none
    | c :: _ =>
      if jsWs c then
        let a2 := (s.drop 9).dropWhile jsWs
        if (lc "name=").isPrefixOf a2 then
          match a2.drop 5 with
          | q :: body =>
            if isQuoteCh q then
              (lazyQuoteSplits body).findSome? (fun cand =>
                argContinuation cand.1 cand.2)
            else none
          | [] => none
        else none
      else none
  else none

/-- Model of `tagInner.matchAll(ARGUMENT_REGEX)`: all matches from left to
right, resuming after each match.  The fuel bounds the scan; every step
consumes at least one character, so fuel equal to the input length is
enough. -/
def argMatchAll : Nat → List Char → List (List Char × List Char)
  | 0, _ => []
  | _ + 1, [] => []
  | fuel + 1, c :: t =>
    match matchArgAt (c :: t) with
    | some (n, v, rest) => (n, v) :: argMatchAll fuel rest
    | none => argMatchAll fuel t

/-- The word-character class `[a-zA-Z0-9_]` of `DEEP_ARG_REGEX`. -/
def isWordCh (c : Char) : Bool :=
  isDigitCh c || (65 ≤ c.toNat && c.toNat ≤ 90) ||
  (97 ≤ c.toNat && c.toNat ≤ 122) || c = '_'

/-- First occurrence of a literal closing tag, as forced by the lazy
`([\s\S]*?)` of `DEEP_ARG_REGEX`: returns the content before it and the
input after it. -/
def findClosing (close : List Char) : List Char → Option (List Char × List Char)
  | [] => none
  | c :: t =>
    if close.isPrefixOf (c :: t) then some ([], (c :: t).drop close.length)
    else (findClosing close t).map (fun r => (c :: r.1, r.2))

/-- Attempt of `DEEP_ARG_REGEX` (`<([a-zA-Z0-9_]+)>([\s\S]*?)<\/\1>`)
anchored at the head of `s`. -/
def matchDeepAt (s : List Char) : Option (List Char × List Char × List Char) :=
  match s with
  | [] => none
  | c :: t =>
    if c = '<' then
      let nm := t.takeWhile isWordCh
      if nm.isEmpty then none
      else
        match t.dropWhile isWordCh with
        | g :: t3 =>
          if g = '>' then
            (findClosing (['<', '/'] ++ nm ++ ['>']) t3).map
              (fun r => (nm, r.1, r.2))
          else none
        | [] => none
    else none

/-- Model of `tagInner.matchAll(DEEP_ARG_REGEX)`. -/
def deepMatchAll : Nat → List Char → List (List Char × List Char)
  | 0, _ => []
  | _ + 1, [] => []
  | fuel + 1, c :: t =>
    match matchDeepAt (c :: t) with
    | some (n, v, rest) => (n, v) :: deepMatchAll fuel rest
    | none => deepMatchAll fuel t

/-! ### The `parseMessageContent` loop body -/

/-- JavaScript truthiness of a possibly-undefined string. -/
def jsTruthy (o : Option (List Char)) : Bool :=
  match o with
  | some s => !s.isEmpty
  | none => false

/-- JavaScript `a || b` on possibly-undefined strings: `a` when truthy,
otherwise `b` as-is. -/
def jsOr2 (a b : Option (List Char)) : Option (List Char) :=
  if jsTruthy a then a else b

/-- JavaScript `a || ''` on a possibly-undefined string. -/
def jsOrEmpty (a : Option (List Char)) : List Char :=
  match a with
  | some s => s
  | none => []

/-- Model of `String.prototype.endsWith`. -/
def jsEndsWith (s suffix : List Char) : Bool := suffix.isSuffixOf s

/-- The `args` object a `tool` tag's inner XML is reduced to: flat
`<argument name value/>` children first; if that yields no keys, nested
`<key>value</key>` children, excluding the structural names `arguments`,
`thought` and `think`, with values trimmed. -/
def toolArgsOf (tagInner : List Char) : List (List Char × List Char) :=
  let flat := (argMatchAll tagInner.length tagInner).foldl
    (fun a kv => assocInsert a kv.1 kv.2) []
  if flat.isEmpty then
    (deepMatchAll tagInner.length tagInner).foldl
      (fun a kv =>
        if kv.1 = lc "arguments" || kv.1 = lc "thought" || kv.1 = lc "think" then a
        else assocInsert a kv.1 (jsTrim kv.2)) []
  else flat

/-- Content of an emitted tool segment (source lines 243-269): a `tool` tag
whose attributes contain `name=` and whose trimmed inner text does not
start with a brace gets `JSON.stringify({ name, arguments })`; everything
else passes the inner text through.  `NAME_ATTR_REGEX` is the same
pattern `getAttr` compiles for the name `name`.  Stringify fuel 4 covers
the fixed two-level shape of the synthesized object. -/
def toolContentOf (ty tagAttrs tagInner : List Char) : List Char :=
  if ty = lc "tool" ∧ containsSub (lc "name=") tagAttrs then
    let toolName := (getAttr (lc "name") tagAttrs).getD (lc "unknown")
    if !((jsTrim tagInner).head? = some cLb) then
      jsonStringify 4 (Json.jobj
        [(lc "name", Json.jstr toolName),
         (lc "arguments", Json.jobj
           ((toolArgsOf tagInner).map (fun kv => (kv.1, Json.jstr kv.2))))])
    else tagInner
  else tagInner

/-- The tail of the `tool_pending` branch once the four attribute reads are
done: if all four are truthy, trim `params_b64`, strip its whitespace,
base64-decode and JSON-parse it, and push a pending segment whose content
is `JSON.stringify({request_id, tool, action, params})`; any decode
failure is caught and drops the tag.  The stringify fuel exceeds the
decoded text length and hence the depth of `params`. -/
def pendingAssemble (requestId tool action paramsB64 : Option (List Char)) :
    List Part :=
  if jsTruthy requestId && jsTruthy tool && jsTruthy action && jsTruthy paramsB64 then
    let cleanB64 := (jsTrim (jsOrEmpty paramsB64)).filter (fun c => !jsWs c)
    match (atob cleanB64).bind jsonParse with
    | some params =>
      [⟨.pending, jsonStringify (cleanB64.length + 16) (Json.jobj
        [(lc "request_id", Json.jstr (jsOrEmpty requestId)),
         (lc "tool", Json.jstr (jsOrEmpty tool)),
         (lc "action", Json.jstr (jsOrEmpty action)),
         (lc "params", params)]), none⟩]
    | none => []
  else []

/-- The `tool_pending` branch for a defined `tagContent`: the four
`getAttr` reads (source lines 273-276) feeding `pendingAssemble`. -/
def pendingPartsOf (tagContent : List Char) : List Part :=
  pendingAssemble (getAttr (lc "request_id") tagContent)
    (getAttr (lc "tool") tagContent) (getAttr (lc "action") tagContent)
    (getAttr (lc "params_b64") tagContent)

/-- The segments pushed for one `TAG_REGEX` match (the `if`/`else if` chain
on `type` in the loop body, source lines 236-295).  The `tool_pending`
branch evaluates `match[2] || match[5]` and throws a `TypeError` when that
is undefined, since `getAttr` then dereferences `undefined.match`. -/
def segmentsFor (md : TagMatch) : Except JsError (List Part) :=
  let tagAttrs := jsOrEmpty md.g2
  let tagInner := jsOrEmpty md.g3
  match jsOr2 md.g1 md.g4 with
  | none => .ok []
  | some ty =>
    if ty = lc "thought" ∨ ty = lc "think" then
      .ok [⟨.thought, tagInner,
            some (!jsEndsWith md.full (['<', '/'] ++ ty ++ ['>']))⟩]
    else if ty = lc "tool_call" ∨ ty = lc "tool" then
      .ok [⟨.tool, toolContentOf ty tagAttrs tagInner, none⟩]
    else if ty = lc "tool_pending" then
      match jsOr2 md.g2 md.g5 with
      | none => .error .typeError
      | some tagContent => .ok (pendingPartsOf tagContent)
    else if ty = lc "tool_result" then .ok []
    else if ty = lc "answer" then .ok [⟨.text, tagInner, none⟩]
    else .ok []

/-- The text segment pushed for the run before a match, when its trim is
nonempty. -/
def beforeParts (pre : List Char) : List Part :=
  if (jsTrim pre).isEmpty then [] else [⟨.text, pre, none⟩]

/-- The text segment pushed for the input after the last match, when its
trim is nonempty. -/
def trailingParts (s : List Char) : List Part :=
  if (jsTrim s).isEmpty then [] else [⟨.text, s, none⟩]

/-- The `while ((match = tagRegex.exec(content)) !== null)` loop.  The fuel
is the remaining iteration budget (`MAX_ITERATIONS` minus processed
matches); when a match is found with no budget left the loop breaks and
the whole unprocessed suffix becomes the remaining text, which is also
what happens when the budget is exhausted before looking (both give the
trailing-text treatment of the suffix).  The stuck-regex guard (a
zero-width match at the current position advances by one) is kept even
though every `TAG_REGEX` match starts with `<` and is nonempty. -/
def scanLoop : Nat → List Char → Except JsError (List Part)
  | 0, s => .ok (trailingParts s)
  | fuel + 1, s =>
    match findMatch s with
    | none => .ok (trailingParts s)
    | some (pre, md, rest) =>
      if pre.isEmpty && md.full.isEmpty then
        scanLoop fuel (s.drop 1)
      else
        match segmentsFor md with
        | .error e => .error e
        | .ok segs =>
          match scanLoop fuel rest with
          | .error e => .error e
          | .ok tail => .ok (beforeParts pre ++ segs ++ tail)

/-! ### The text sanitizer (source lines 307-319) -/

/-- Verbs of the leaked-tool-header pattern, in alternation order. -/
def hdrVerbs : List (List Char) :=
  [lc "GET", lc "UPDATE", lc "DELETE", lc "SEARCH", lc "WRITE"]

/-- Nouns of the leaked-tool-header pattern, in alternation order. -/
def hdrNouns : List (List Char) := [lc "MEMORY", lc "WEB", lc "FILE"]

/-- Case-insensitive literal prefix match returning the rest. -/
def ciPrefixRest : List Char → List Char → Option (List Char)
  | [], s => some s
  | _ :: _, [] => none
  | p :: ps, c :: cs => if c.toLower = p.toLower then ciPrefixRest ps cs else none

/-- Attempt of the header pattern
`(?:GET|UPDATE|DELETE|SEARCH|WRITE)\s+(?:MEMORY|WEB|FILE)[\s\S]*?(\n|$)`
(case-insensitive) anchored at the head; returns the rest after the
match.  The lazy tail ends at the first newline (consumed) or the end of
input. -/
def matchHdrAt (s : List Char) : Option (List Char) :=
  (hdrVerbs.findSome? (fun v => ciPrefixRest v s)).bind (fun r1 =>
    match r1 with
    | [] => none
    | c :: _ =>
      if jsWs c then
        let r2 := r1.dropWhile jsWs
        (hdrNouns.findSome? (fun n => ciPrefixRest n r2)).map (fun r3 =>
          match r3.dropWhile (· ≠ '\n') with
          | _ :: rest => rest
          | [] => [])
      else none)

/-- Attempt of the leaked-JSON pattern
`\{\s*"name"\s*:\s*"[^"]+"\s*,\s*"arguments"[\s\S]*?\}` anchored at the
head; returns the rest after the match. -/
def matchJsonFragAt (s : List Char) : Option (List Char) :=
  match s with
  | [] => none
  | c :: t =>
    if c = cLb then
      let r1 := t.dropWhile jsWs
      if ([cDq] ++ lc "name" ++ [cDq]).isPrefixOf r1 then
        match (r1.drop 6).dropWhile jsWs with
        | ':' :: r3 =>
          match r3.dropWhile jsWs with
          | q :: r5 =>
            if q = cDq then
              let content := r5.takeWhile (· ≠ cDq)
              if content.isEmpty then none
              else
                match r5.dropWhile (· ≠ cDq) with
                | _ :: r6 =>
                  match r6.dropWhile jsWs with
                  | ',' :: r8 =>
                    let r9 := r8.dropWhile jsWs
                    if ([cDq] ++ lc "arguments" ++ [cDq]).isPrefixOf r9 then
                      match (r9.drop 11).dropWhile (· ≠ cRb) with
                      | _ :: rest => some rest
                      | [] => none
                    else none
                  | _ => none
                | [] => none
            else none
          | [] => none
        | _ => none
      else none
    else none

/-- ASCII letter, the `[a-z]` class under the `i` flag. -/
def isAsciiLetter (c : Char) : Bool :=
  (65 ≤ c.toNat && c.toNat ≤ 90) || (97 ≤ c.toNat && c.toNat ≤ 122)

/-- Attempt of the empty-fence pattern ` ```[a-z]*\s*``` ` (case
insensitive) anchored at the head; returns the rest after the match. -/
def matchFenceAt (s : List Char) : Option (List Char) :=
  if (lc "```").isPrefixOf s then
    let r3 := ((s.drop 3).dropWhile isAsciiLetter).dropWhile jsWs
    if (lc "```").isPrefixOf r3 then some (r3.drop 3) else none
  else none

/-- Global regex replacement with the empty string: scan left to right,
dropping each match and resuming after it.  Fuel equal to the input
length is enough since every step consumes at least one character. -/
def replaceAllGo (m : List Char → Option (List Char)) :
    Nat → List Char → List Char
  | 0, s => s
  | _ + 1, [] => []
  | fuel + 1, c :: t =>
    match m (c :: t) with
    | some rest => replaceAllGo m fuel rest
    | none => c :: replaceAllGo m fuel t

/-- The sanitizer applied to each text part: strip leaked tool headers,
leaked `{"name": ..., "arguments": ...}` fragments and empty fenced code
blocks, then trim. -/
def sanitizeText (s : List Char) : List Char :=
  let s1 := replaceAllGo matchHdrAt s.length s
  let s2 := replaceAllGo matchJsonFragAt s1.length s1
  let s3 := replaceAllGo matchFenceAt s2.length s2
  jsTrim s3

/-- The per-part sanitize step of the `cleanedParts` map. -/
def sanitizePart (p : Part) : Part :=
  if p.kind = .text then { p with content := sanitizeText p.content } else p

/-- The `cleanedParts` pipeline: sanitize text parts, then drop text parts
whose content became empty. -/
def cleanup (parts : List Part) : List Part :=
  (parts.map sanitizePart).filter (fun p => p.kind != .text || !p.content.isEmpty)

/-! ### `parseMessageContent` -/

/-- The hard cap on the parsed buffer length (source line 199). -/
def MAX_CONTENT_LENGTH : Nat := 1000000

/-- The iteration budget of the scan loop (source line 210). -/
def MAX_ITERATIONS : Nat := 10000

/-- The buffer-truncation step of `parseMessageContent` (source lines
200-203): content beyond `MAX_CONTENT_LENGTH` is cut off, with no marker
added. -/
def jsTruncate (content : List Char) : List Char :=
  if content.length > MAX_CONTENT_LENGTH then content.take MAX_CONTENT_LENGTH
  else content

/-- Model of `parseMessageContent`: empty or whitespace-only buffers return
one empty text segment; otherwise the (possibly truncated) buffer is
scanned and the parts are cleaned up.  `Except` carries the one uncaught
`TypeError` of the `tool_pending` branch. -/
def parseMessageContent (content : List Char) : Except JsError (List Part) :=
  if content.isEmpty || (jsTrim content).isEmpty then
    .ok [⟨.text, [], none⟩]
  else
    Except.map cleanup (scanLoop MAX_ITERATIONS (jsTruncate content))

/-! ### Position-annotated scan
The same loop, additionally recording for every emitted part the index in
the scanned buffer at which its source span starts (`pos` is the index of
the head of the current suffix; a before-text run starts at `pos`, a tag
segment at `pos + pre.length`, and the scan resumes past the match). -/

/-- Position-annotated variant of `beforeParts`. -/
def beforePos (pos : Nat) (pre : List Char) : List (Nat × Part) :=
  if (jsTrim pre).isEmpty then [] else [(pos, ⟨.text, pre, none⟩)]

/-- Position-annotated variant of `trailingParts`. -/
def trailingPos (pos : Nat) (s : List Char) : List (Nat × Part) :=
  if (jsTrim s).isEmpty then [] else [(pos, ⟨.text, s, none⟩)]

/-- Position-annotated variant of `scanLoop`. -/
def scanLoopPos : Nat → Nat → List Char → Except JsError (List (Nat × Part))
  | 0, pos, s => .ok (trailingPos pos s)
  | fuel + 1, pos, s =>
    match findMatch s with
    | none => .ok (trailingPos pos s)
    | some (pre, md, rest) =>
      if pre.isEmpty && md.full.isEmpty then
        scanLoopPos fuel (pos + 1) (s.drop 1)
      else
        match segmentsFor md with
        | .error e => .error e
        | .ok segs =>
          match scanLoopPos fuel (pos + pre.length + md.full.length) rest with
          | .error e => .error e
          | .ok tail =>
            .ok (beforePos pos pre ++
              segs.map (fun p => (pos + pre.length, p)) ++ tail)

/-- Position-annotated variant of `cleanup` (sanitizing and filtering touch
only the parts, never the positions, and never reorder). -/
def cleanupPos (l : List (Nat × Part)) : List (Nat × Part) :=
  (l.map (fun np => (np.1, sanitizePart np.2))).filter
    (fun np => np.2.kind != .text || !np.2.content.isEmpty)

/-- Position-annotated variant of `parseMessageContent`. -/
def parseMessageContentPos (content : List Char) :
    Except JsError (List (Nat × Part)) :=
  if content.isEmpty || (jsTrim content).isEmpty then
    .ok [(0, ⟨.text, [], none⟩)]
  else
    Except.map cleanupPos (scanLoopPos MAX_ITERATIONS 0 (jsTruncate content))

/-! ### The module-level mutable state, threaded explicitly
`parseMessageContent` runs against two pieces of module-level mutable
state: `ATTR_REGEX_CACHE` (a record of per-attribute compiled regexes,
filled lazily by `getAttr`) and the global `TAG_REGEX` object's
`lastIndex` (never used: line 206 clones a fresh regex from
`TAG_REGEX.source` and `TAG_REGEX.flags`).  The compiled regex stored in
the cache is a pure function of the attribute name, so a cache is fully
described by the set of names compiled so far. -/

/-- The `ATTR_REGEX_CACHE` state: the attribute names compiled so far. -/
abbrev RegexCache := List (List Char)

/-- Record that `getAttr` compiled (or found) the regex for `name`. -/
def cacheAdd (cache : RegexCache) (name : List Char) : RegexCache :=
  if cache.contains name then cache else cache ++ [name]

/-- State-threaded `getAttr`: compile-and-cache the regex for `name`, then
match; the match result does not depend on the incoming cache. -/
def getAttrSt (cache : RegexCache) (name s : List Char) :
    Option (List Char) × RegexCache :=
  (getAttr name s, cacheAdd cache name)

/-- State-threaded variant of `segmentsFor`.  Only the `tool_pending`
branch touches `ATTR_REGEX_CACHE`; when `tagContent` is undefined the
cache entry for `request_id` is still compiled before the `TypeError` is
thrown. -/
def segmentsForSt (cache : RegexCache) (md : TagMatch) :
    Except JsError (List Part) × RegexCache :=
  let tagAttrs := jsOrEmpty md.g2
  let tagInner := jsOrEmpty md.g3
  match jsOr2 md.g1 md.g4 with
  | none => (.ok [], cache)
  | some ty =>
    if ty = lc "thought" ∨ ty = lc "think" then
      (.ok [⟨.thought, tagInner,
            some (!jsEndsWith md.full (['<', '/'] ++ ty ++ ['>']))⟩], cache)
    else if ty = lc "tool_call" ∨ ty = lc "tool" then
      (.ok [⟨.tool, toolContentOf ty tagAttrs tagInner, none⟩], cache)
    else if ty = lc "tool_pending" then
      match jsOr2 md.g2 md.g5 with
      | none => (.error .typeError, cacheAdd cache (lc "request_id"))
      | some tagContent =>
        let (requestId, c1) := getAttrSt cache (lc "request_id") tagContent
        let (tool, c2) := getAttrSt c1 (lc "tool") tagContent
        let (action, c3) := getAttrSt c2 (lc "action") tagContent
        let (paramsB64, c4) := getAttrSt c3 (lc "params_b64") tagContent
        (.ok (pendingAssemble requestId tool action paramsB64), c4)
    else if ty = lc "tool_result" then (.ok [], cache)
    else if ty = lc "answer" then (.ok [⟨.text, tagInner, none⟩], cache)
    else (.ok [], cache)

/-- State-threaded variant of `scanLoop`. -/
def scanLoopSt : Nat → RegexCache → List Char →
    Except JsError (List Part) × RegexCache
  | 0, cache, s => (.ok (trailingParts s), cache)
  | fuel + 1, cache, s =>
    match findMatch s with
    | none => (.ok (trailingParts s), cache)
    | some (pre, md, rest) =>
      if pre.isEmpty && md.full.isEmpty then
        scanLoopSt fuel cache (s.drop 1)
      else
        let sc := segmentsForSt cache md
        match sc.1 with
        | .error e => (.error e, sc.2)
        | .ok segs =>
          let tl := scanLoopSt fuel sc.2 rest
          match tl.1 with
          | .error e => (.error e, tl.2)
          | .ok tail => (.ok (beforeParts pre ++ segs ++ tail), tl.2)

/-- `parseMessageContent` run against explicit module-level mutable state:
the attribute-regex cache and the global `TAG_REGEX.lastIndex` (returned
untouched, since the loop runs a fresh clone). -/
def parseMessageContentWithState (cache : RegexCache) (tagRegexLastIndex : Nat)
    (content : List Char) :
    Except JsError (List Part) × RegexCache × Nat :=
  if content.isEmpty || (jsTrim content).isEmpty then
    (.ok [⟨.text, [], none⟩], cache, tagRegexLastIndex)
  else
    match scanLoopSt MAX_ITERATIONS cache (jsTruncate content) with
    | (r, c2) => (Except.map cleanup r, c2, tagRegexLastIndex)

/-! ### The approval state machine
(`votedActions`, `handleApproveAction`, `handleDenyAction`,
`PendingActionBlock`, source lines 336 and 627-710) -/

/-- A locally recorded vote: `votedActions[request_id]` is `'approved'` or
`'denied'`; an absent key is the unresolved state. -/
inductive Vote where
  | approved
  | denied
deriving DecidableEq, Repr

/-- Observable effects of one approve/deny handler invocation: the updated
`votedActions` record, how many approve/deny resolution calls were
issued, how many pending-count refreshes ran, the `alert` messages shown,
and the follow-up prompts passed to `handleSubmit`. -/
structure ApproveEffects where
  votedActions : List (List Char × Vote)
  resolutionCalls : Nat
  pendingCountQueries : Nat
  alerts : List (List Char)
  followUps : List (List Char)
deriving DecidableEq, Repr

/-- The follow-up prompt synthesized after a successful approval, with the
serialized tool result interpolated. -/
def approveFollowUp (result : List Char) : List Char :=
  lc "USER APPROVED: The action was APPROVED. Tool Result: " ++ result ++
  lc ". \n            \nCRITICAL: Please provide a clear, user-friendly summary of what was accomplished (e.g., \"I" ++
  [cSq] ++
  lc "ve written the file test.txt with your content\"). If there was an error in the tool output, explain it concisely."

/-- The follow-up prompt synthesized after a successful denial. -/
def denyFollowUp : List Char :=
  lc "The user DENIED the action. Inform the user you cannot proceed with that specific action and explain if necessary."

/-- Model of `handleApproveAction`: record `'approved'` for the request id
first, then issue the resolution call; on success refresh the pending
count and submit the follow-up turn, on failure alert `"Approval
failed."`.  `callOk` is the outcome of the external call and `result` the
serialized tool result it returned. -/
def handleApproveAction (votedActions : List (List Char × Vote))
    (requestId : List Char) (callOk : Bool) (result : List Char) :
    ApproveEffects :=
  let voted := assocInsert votedActions requestId .approved
  if callOk then
    { votedActions := voted, resolutionCalls := 1, pendingCountQueries := 1,
      alerts := [], followUps := [approveFollowUp result] }
  else
    { votedActions := voted, resolutionCalls := 1, pendingCountQueries := 0,
      alerts := [lc "Approval failed."], followUps := [] }

/-- Model of `handleDenyAction`, symmetric to `handleApproveAction`. -/
def handleDenyAction (votedActions : List (List Char × Vote))
    (requestId : List Char) (callOk : Bool) : ApproveEffects :=
  let voted := assocInsert votedActions requestId .denied
  if callOk then
    { votedActions := voted, resolutionCalls := 1, pendingCountQueries := 1,
      alerts := [], followUps := [denyFollowUp] }
  else
    { votedActions := voted, resolutionCalls := 1, pendingCountQueries := 0,
      alerts := [lc "Denial failed."], followUps := [] }

/-- Whether `PendingActionBlock` renders the Approve/Deny buttons for a
request id: only while `votedActions[request_id]` is unset
(`{!status && (...)}`, source line 687). -/
def pendingButtonsShown (votedActions : List (List Char × Vote))
    (requestId : List Char) : Bool :=
  (assocLookup votedActions requestId).isNone

/-- The cap on the accumulated streamed response in `handleSubmit` (source
line 562). -/
def MAX_RESPONSE_LENGTH : Nat := 5000000

/-- The streaming consumer's truncation step (source lines 580-584): past
`MAX_RESPONSE_LENGTH` the accumulated response is cut and the visible
marker `"\n...[truncated]"` is appended. -/
def truncateResponse (accumulatedResponse : List Char) : List Char :=
  if accumulatedResponse.length > MAX_RESPONSE_LENGTH then
    accumulatedResponse.take MAX_RESPONSE_LENGTH ++ lc "\n...[truncated]"
  else accumulatedResponse

/-! ## Supporting lemmas -/

theorem all_of_jsTrim_eq_nil (s : List Char) (h : jsTrim s = []) :
    s.all jsWs = true := by
  unfold jsTrim at h
  rw [List.reverse_eq_nil_iff, List.dropWhile_eq_nil_iff] at h
  rw [List.all_eq_true]
  intro x hx
  rw [← List.takeWhile_append_dropWhile jsWs s] at hx
  rcases List.mem_append.mp hx with h1 | h1
  · exact List.mem_takeWhile_imp h1
  · exact h x (List.mem_reverse.mpr h1)

theorem jsTrim_ne_nil_of_mem {s : List Char} {c : Char} (hmem : c ∈ s)
    (hc : jsWs c = false) : jsTrim s ≠ [] := by
  intro hnil
  have h := List.all_eq_true.mp (all_of_jsTrim_eq_nil s hnil) c hmem
  rw [hc] at h
  exact Bool.noConfusion h

theorem jsTrim_all_false {s : List Char} (h : jsTrim s ≠ []) :
    (jsTrim s).all jsWs = false := by
  have hy : (s.dropWhile jsWs).reverse.dropWhile jsWs ≠ [] := by
    intro hnil
    apply h
    unfold jsTrim
    rw [hnil]
    rfl
  have hh := List.head_dropWhile_not jsWs (s.dropWhile jsWs).reverse hy
  unfold jsTrim
  rw [List.all_reverse]
  cases hall : ((s.dropWhile jsWs).reverse.dropWhile jsWs).all jsWs
  · rfl
  · exfalso
    have h2 := List.all_eq_true.mp hall _ (List.head_mem hy)
    rw [hh] at h2
    exact Bool.noConfusion h2

/-- The match result of `getAttrSt` ignores the incoming cache. -/
theorem getAttrSt_fst (cache : RegexCache) (name s : List Char) :
    (getAttrSt cache name s).1 = getAttr name s := rfl

/-- The segments produced by the state-threaded loop body ignore the
incoming cache. -/
theorem segmentsForSt_fst (cache : RegexCache) (md : TagMatch) :
    (segmentsForSt cache md).1 = segmentsFor md := by
  unfold segmentsForSt segmentsFor
  cases jsOr2 md.g1 md.g4 with
  | none => rfl
  | some ty =>
    simp only
    split
    · rfl
    · split
      · rfl
      · split
        · cases jsOr2 md.g2 md.g5 with
          | none => rfl
          | some tagContent => simp [getAttrSt, pendingPartsOf]
        · split
          · rfl
          · split <;> rfl

/-- The parts produced by the state-threaded scan loop ignore the incoming
cache. -/
theorem scanLoopSt_fst (fuel : Nat) (cache : RegexCache) (s : List Char) :
    (scanLoopSt fuel cache s).1 = scanLoop fuel s := by
  induction fuel generalizing cache s with
  | zero => rfl
  | succ f ih =>
    unfold scanLoopSt scanLoop
    cases hfm : findMatch s with
    | none => rfl
    | some pmr =>
      rcases pmr with ⟨pre, md, rest⟩
      simp only
      split
      · exact ih cache _
      · simp only [segmentsForSt_fst]
        cases segmentsFor md with
        | error e => rfl
        | ok segs =>
          simp only [ih]
          cases scanLoop f rest <;> rfl

/-- The parse result ignores the module-level mutable state entirely. -/
theorem parseMessageContentWithState_fst (cache : RegexCache) (li : Nat)
    (content : List Char) :
    (parseMessageContentWithState cache li content).1 =
      parseMessageContent content := by
  unfold parseMessageContentWithState parseMessageContent
  split
  · rfl
  · rcases hS : scanLoopSt MAX_ITERATIONS cache (jsTruncate content) with ⟨r, c2⟩
    have hr : r = scanLoop MAX_ITERATIONS (jsTruncate content) := by
      rw [← scanLoopSt_fst MAX_ITERATIONS cache (jsTruncate content), hS]
    simp [hr]

/-- Every key written by `assocInsert` is read back. -/
theorem assocLookup_assocInsert {α : Type} (l : List (List Char × α))
    (k : List Char) (v : α) : assocLookup (assocInsert l k v) k = some v := by
  induction l with
  | nil => simp [assocInsert, assocLookup]
  | cons kv t ih =>
    rcases kv with ⟨k0, v0⟩
    unfold assocInsert
    by_cases h : k0 = k
    · rw [if_pos h]
      simp [assocLookup]
    · rw [if_neg h]
      unfold assocLookup
      rw [if_neg h]
      exact ih

/-- The sanitizer ends in a trim. -/
theorem sanitizeText_is_trim (s : List Char) :
    ∃ u, sanitizeText s = jsTrim u := ⟨_, rfl⟩

/-- A nonempty list is not `isEmpty`. -/
theorem isEmpty_false_of_ne_nil {α : Type} {l : List α} (h : l ≠ []) :
    l.isEmpty = false := by
  cases l with
  | nil => exact absurd rfl h
  | cons a t => rfl

/-- A replicate of a positive count is nonempty. -/
theorem replicate_ne_nil_of_pos {α : Type} {n : Nat} (hn : 0 < n) (c : α) :
    List.replicate n c ≠ [] := by
  intro h
  have hl := congrArg List.length h
  rw [List.length_replicate] at hl
  simp at hl
  exact absurd hl (Nat.pos_iff_ne_zero.mp hn)

/-- Trimming a replicate of a non-whitespace character changes nothing. -/
theorem jsTrim_replicate {c : Char} (hc : jsWs c = false) (n : Nat) :
    jsTrim (List.replicate n c) = List.replicate n c := by
  unfold jsTrim
  rw [List.dropWhile_replicate, if_neg (by simp [hc]), List.reverse_replicate,
    List.dropWhile_replicate, if_neg (by simp [hc]), List.reverse_replicate]

/-- `findMatch` finds nothing in a buffer whose matcher refuses every
suffix head. -/
theorem findMatch_eq_none_of_matchAt {s : List Char}
    (h : ∀ c t, c :: t <:+ s → matchAt (c :: t) = none) : findMatch s = none := by
  induction s with
  | nil => rfl
  | cons c t ih =>
    unfold findMatch
    rw [h c t List.suffix_rfl]
    rw [ih (fun c2 t2 hsuf => h c2 t2 (hsuf.trans (List.suffix_cons c t)))]

/-- `matchAt` refuses any head other than `<`. -/
theorem matchAt_eq_none {c : Char} (hc : ¬c = '<') (t : List Char) :
    matchAt (c :: t) = none := by
  simp only [matchAt]
  rw [if_neg hc]

/-- When the regex matches nowhere, any fuel yields the trailing-text
treatment of the whole buffer. -/
theorem scanLoop_of_findMatch_none {s : List Char} (h : findMatch s = none)
    (fuel : Nat) : scanLoop fuel s = .ok (trailingParts s) := by
  cases fuel with
  | zero => rfl
  | succ f =>
    unfold scanLoop
    rw [h]

/-- A global replacement whose matcher refuses every position of a
replicate leaves it unchanged. -/
theorem replaceAllGo_replicate {m : List Char → Option (List Char)} {c : Char}
    (hm : ∀ t, m (c :: t) = none) (fuel : Nat) :
    ∀ n, replaceAllGo m fuel (List.replicate n c) = List.replicate n c := by
  induction fuel with
  | zero => intro n; rfl
  | succ f ih =>
    intro n
    cases n with
    | zero => rfl
    | succ k =>
      rw [List.replicate_succ]
      unfold replaceAllGo
      rw [hm (List.replicate k c), ih k]

/-- A list is a `isPrefixOf` of itself followed by anything. -/
theorem isPrefixOf_self_append (a b : List Char) :
    a.isPrefixOf (a ++ b) = true := by
  induction a with
  | nil => simp [List.isPrefixOf]
  | cons c t ih => simp [List.isPrefixOf, ih]

/-- The inner-content scan of a tag body with no `<` runs to the end of the
buffer: the whole body is captured, no closing tag is consumed, nothing
remains. -/
theorem contentScan_no_lt (T : List Char) {u : List Char} (h : '<' ∉ u) :
    contentScan T u = some (u, false, []) := by
  induction u with
  | nil => rfl
  | cons c t ih =>
    have hc : ¬c = '<' := fun he => h (he ▸ List.mem_cons_self c t)
    have ht : '<' ∉ t := fun hm => h (List.mem_cons_of_mem c hm)
    unfold contentScan
    rw [if_neg hc, ih ht]
    rfl

/-- The closing tag `</T>` is not a suffix of `<T>` followed by text that
contains no `<` (so an unterminated tag is recognized as streaming). -/
theorem closing_not_suffix (T s : List Char) (hTne : T ≠ [])
    (hhead : ∀ c, T.head? = some c → c ≠ '/')
    (hTlt : '<' ∉ T) (hslt : '<' ∉ s) :
    ¬ (['<', '/'] ++ T ++ ['>']) <:+ ('<' :: (T ++ '>' :: s)) := by
  rintro ⟨t, ht⟩
  simp only [List.cons_append, List.nil_append, List.append_assoc] at ht
  cases t with
  | nil =>
    simp only [List.nil_append] at ht
    obtain ⟨-, ht2⟩ := List.cons.inj ht
    cases T with
    | nil => exact hTne rfl
    | cons c T2 =>
      obtain ⟨hc, -⟩ := List.cons.inj ht2
      exact hhead c rfl hc.symm
  | cons c t2 =>
    obtain ⟨-, ht2⟩ := List.cons.inj ht
    have hmem : '<' ∈ T ++ '>' :: s := by
      rw [← ht2]
      simp [List.append_eq]
    rcases List.mem_append.mp hmem with h1 | h1
    · exact hTlt h1
    · rcases List.mem_cons.mp h1 with h2 | h2
      · exact absurd h2 (by decide)
      · exact hslt h2

/-- A single zero-offset match spanning the whole buffer yields exactly its
segments (no before-text, no trailing text). -/
theorem scanLoop_single (fuel : Nat) {s : List Char} {md : TagMatch}
    {segs : List Part} (hfm : findMatch s = some ([], md, []))
    (hfull : md.full.isEmpty = false)
    (hsegs : segmentsFor md = .ok segs) :
    scanLoop (fuel + 1) s = .ok segs := by
  unfold scanLoop
  rw [hfm]
  simp only
  rw [if_neg (by simp [hfull]), hsegs,
    scanLoop_of_findMatch_none (show findMatch [] = none from rfl) fuel]
  show Except.ok (beforeParts [] ++ segs ++ trailingParts []) = _
  simp [beforeParts, trailingParts, jsTrim]

/-- Cleanup leaves a single non-text segment untouched. -/
theorem cleanup_nontext_single (p : Part) (h : (p.kind != PartKind.text) = true) :
    cleanup [p] = [p] := by
  unfold cleanup
  rw [List.map_cons, List.map_nil]
  have hsp : sanitizePart p = p := by
    unfold sanitizePart
    rw [if_neg (by simpa using h)]
  rw [hsp, List.filter_cons_of_pos, List.filter_nil]
  rw [h, Bool.true_or]

/-- `pickName` on a `thought` tag head: the first alternation name matches
and its attribute scan consumes the immediate `>`. -/
theorem pickName_thought (s : List Char) :
    pickName tagNames (lc "thought" ++ '>' :: s) = some (lc "thought", none, s) := by
  unfold tagNames pickName
  rw [isPrefixOf_self_append, if_pos rfl, List.drop_left]
  rfl

/-- `pickName` on a `think` tag head: `thought` fails the prefix check and
the engine backtracks to `think`. -/
theorem pickName_think (s : List Char) :
    pickName tagNames (lc "think" ++ '>' :: s) = some (lc "think", none, s) := by
  have h1 : (lc "thought").isPrefixOf (lc "think" ++ '>' :: s) = false := rfl
  unfold tagNames pickName
  rw [h1]
  simp only [Bool.false_eq_true, if_false]
  unfold pickName
  rw [isPrefixOf_self_append, if_pos rfl, List.drop_left]
  rfl

/-- `TAG_REGEX` anchored on an attribute-less opening tag whose body has no
`<`: the match swallows the whole buffer, capturing the body with no
closing tag. -/
theorem matchAt_open (T s : List Char)
    (hpick : pickName tagNames (T ++ '>' :: s) = some (T, none, s))
    (hlt : '<' ∉ s) :
    matchAt ('<' :: (T ++ '>' :: s)) =
      some ({ full := '<' :: (T ++ '>' :: s), g1 := some T, g2 := none,
              g3 := some s, g4 := none, g5 := none }, []) := by
  simp only [matchAt, if_true]
  rw [hpick]
  simp only []
  rw [contentScan_no_lt T hlt]
  simp only [List.length_nil, Nat.sub_zero, List.take_length]

/-- The scan finds the tag of `matchAt_open` at offset zero. -/
theorem findMatch_open (T s : List Char)
    (hpick : pickName tagNames (T ++ '>' :: s) = some (T, none, s))
    (hlt : '<' ∉ s) :
    findMatch ('<' :: (T ++ '>' :: s)) =
      some ([], { full := '<' :: (T ++ '>' :: s), g1 := some T, g2 := none,
                  g3 := some s, g4 := none, g5 := none }, []) := by
  unfold findMatch
  rw [matchAt_open T s hpick hlt]

/-- The loop body on an unterminated `thought`/`think` match: one thought
segment with the body as content and the streaming flag set (the full
match cannot end in the closing tag). -/
theorem segmentsFor_streaming_thought (T s : List Char)
    (hT : T = lc "thought" ∨ T = lc "think") (hlt : '<' ∉ s) :
    segmentsFor { full := '<' :: (T ++ '>' :: s), g1 := some T, g2 := none,
                  g3 := some s, g4 := none, g5 := none } =
      .ok [⟨.thought, s, some true⟩] := by
  have hTne : T ≠ [] := by
    rcases hT with h | h <;> subst h <;> decide
  have hhead : ∀ c, T.head? = some c → c ≠ '/' := by
    rcases hT with h | h <;> subst h <;> intro c hc <;>
      simp [lc] at hc <;> subst hc <;> decide
  have hTlt : '<' ∉ T := by
    rcases hT with h | h <;> subst h <;> decide
  have hsufb : jsEndsWith ('<' :: (T ++ '>' :: s))
      (['<', '/'] ++ T ++ ['>']) = false := by
    cases hb : jsEndsWith ('<' :: (T ++ '>' :: s)) (['<', '/'] ++ T ++ ['>']) with
    | false => rfl
    | true =>
      exact absurd (List.isSuffixOf_iff_suffix.mp hb)
        (closing_not_suffix T s hTne hhead hTlt hlt)
  have hty : jsOr2 (some T) none = some T := by
    rcases hT with h | h <;> subst h <;> rfl
  unfold segmentsFor
  rw [hty]
  simp only []
  rw [if_pos hT, hsufb]
  rfl

/-- End-to-end parse of an unterminated attribute-less `thought`/`think`
tag whose body has no `<`: one streaming thought segment. -/
theorem parse_open_streaming (T s : List Char)
    (hT : T = lc "thought" ∨ T = lc "think") (hlt : '<' ∉ s)
    (hlen : 2 + T.length + s.length ≤ MAX_CONTENT_LENGTH)
    (hpick : pickName tagNames (T ++ '>' :: s) = some (T, none, s)) :
    parseMessageContent ('<' :: (T ++ '>' :: s)) =
      .ok [⟨.thought, s, some true⟩] := by
  unfold parseMessageContent
  rw [if_neg ?hc]
  case hc =>
    intro hdisj
    rcases Bool.or_eq_true_iff.mp hdisj with h1 | h1
    · exact absurd (List.isEmpty_iff.mp h1) (by simp)
    · exact jsTrim_ne_nil_of_mem (List.mem_cons_self _ _) (by decide)
        (List.isEmpty_iff.mp h1)
  have htr : jsTruncate ('<' :: (T ++ '>' :: s)) = '<' :: (T ++ '>' :: s) := by
    unfold jsTruncate
    rw [if_neg]
    intro hgt
    simp [List.length_cons, List.length_append] at hgt
    omega
  rw [htr]
  rw [show MAX_ITERATIONS = 9999 + 1 from by norm_num [MAX_ITERATIONS]]
  rw [scanLoop_single 9999 (findMatch_open T s hpick hlt) (by simp)
    (segmentsFor_streaming_thought T s hT hlt)]
  simp only [Except.map]
  rw [cleanup_nontext_single _ (by rfl)]

/-! ## Claims -/

/-- C1: the tokenizer is a pure function of the buffer.  `parseMessageContent`
runs against two pieces of module-level mutable state (the lazily filled
`ATTR_REGEX_CACHE` and the global `TAG_REGEX.lastIndex`, which line 206
sidesteps by cloning a fresh regex); its result is independent of both, so
two invocations on the identical buffer return identical segment lists. -/
theorem spec_c1_tokenizer_deterministic (cache1 cache2 : RegexCache)
    (li1 li2 : Nat) (content : List Char) :
    (parseMessageContentWithState cache1 li1 content).1 =
      (parseMessageContentWithState cache2 li2 content).1 ∧
    (parseMessageContentWithState cache1 li1 content).1 =
      parseMessageContent content := by
  constructor
  · rw [parseMessageContentWithState_fst, parseMessageContentWithState_fst]
  · exact parseMessageContentWithState_fst cache1 li1 content

/-- C3: an unterminated `thought` (or `think`) tag whose body contains no
`<` captures the body to the end of the buffer as one thought segment
flagged `streaming = true` (the length bound keeps the buffer under the
truncation cap). -/
theorem spec_c3_unterminated_thought_streams (s : List Char)
    (hlt : '<' ∉ s) (hlen : s.length ≤ 999991) :
    parseMessageContent (lc "<thought>" ++ s) =
      .ok [⟨.thought, s, some true⟩] ∧
    parseMessageContent (lc "<think>" ++ s) =
      .ok [⟨.thought, s, some true⟩] := by
  constructor
  · exact parse_open_streaming (lc "thought") s (Or.inl rfl) hlt
      (by simp [lc]; norm_num [MAX_CONTENT_LENGTH]; omega) (pickName_thought s)
  · exact parse_open_streaming (lc "think") s (Or.inr rfl) hlt
      (by simp [lc]; norm_num [MAX_CONTENT_LENGTH]; omega) (pickName_think s)

/-- C3 witness: the claim's own example `"<thought>partial"`. -/
theorem spec_c3_witness :
    ('<' ∉ lc "partial") ∧ (lc "partial").length ≤ 999991 ∧
    parseMessageContent (lc "<thought>partial") =
      .ok [⟨.thought, lc "partial", some true⟩] :=
  ⟨by decide, by decide,
   (spec_c3_unterminated_thought_streams (lc "partial") (by decide) (by decide)).1⟩

/-- C4 counterexample: a `tool_call` tag that declares its tool name via a
`name` attribute is NOT synthesized into `{"name", "arguments"}` JSON —
the argument-extraction branch is guarded by `type === 'tool'` only, so
the segment keeps the raw inner XML, which differs from the synthesized
JSON string. -/
theorem spec_c4_counterexample :
    parseMessageContent
      (lc "<tool_call name=\"file\"><argument name=\"path\" value=\"a.txt\"/></tool_call>") =
      .ok [⟨.tool, lc "<argument name=\"path\" value=\"a.txt\"/>", none⟩] ∧
    lc "<argument name=\"path\" value=\"a.txt\"/>" ≠
      lc "\x7b\"name\":\"file\",\"arguments\":\x7b\"path\":\"a.txt\"\x7d\x7d" := by
  constructor
  · decide
  · decide

/-- C5: the example `tool_pending` tag decodes into exactly one pending
segment carrying the JSON of the decoded `PendingAction`; the conjuncts
exhibit the decode pipeline: `params_b64` is trimmed and stripped of
whitespace, base64-decoded by `atob`, and JSON-parsed. -/
theorem spec_c5_tool_pending_decodes :
    parseMessageContent
      (lc "<tool_pending request_id=\"r1\" tool=\"file\" action=\"write\" params_b64=\"eyJhIjoxfQ==\" />") =
      .ok [⟨.pending,
        lc "\x7b\"request_id\":\"r1\",\"tool\":\"file\",\"action\":\"write\",\"params\":\x7b\"a\":1\x7d\x7d",
        none⟩] ∧
    (jsTrim (lc "eyJhIjoxfQ==")).filter (fun c => !jsWs c) = lc "eyJhIjoxfQ==" ∧
    atob (lc "eyJhIjoxfQ==") = some (lc "\x7b\"a\":1\x7d") ∧
    (jsonParse (lc "\x7b\"a\":1\x7d")).map (jsonStringify 4) = some (lc "\x7b\"a\":1\x7d") := by
  refine ⟨?_, ?_, ?_, ?_⟩ <;> decide

/-- C6: a `tool_pending` tag with missing required attributes is mostly
dropped silently (second conjunct: the claim's own example produces no
pending segment), but the claim that no exception ever escapes is false:
for a `tool_pending` tag with no attribute text at all, both attribute
captures are falsy, `tagContent` is undefined, and the `getAttr` call
throws an uncaught `TypeError` (first conjunct) — the guard and
`try`/`catch` in the branch show the intent was to drop such tags. -/
theorem spec_c6_missing_attribute_behavior :
    parseMessageContent (lc "<tool_pending>") = .error .typeError ∧
    parseMessageContent (lc "<tool_pending request_id=\"r1\" tool=\"file\" />") = .ok [] ∧
    parseMessageContent (lc "<tool_pending request_id=\"r1\" tool=\"file\" action=\"write\" params_b64=\"!!\" />") = .ok [] := by
  refine ⟨?_, ?_, ?_⟩ <;> decide

/-- C8 counterexample: `handleApproveAction` records `'approved'` in
`votedActions` before issuing the network call and does not revert on
failure, so after a failed approval the locally tracked status is
`approved`, not unresolved (the claim said it stays `Unresolved`). -/
theorem spec_c8_counterexample :
    assocLookup (handleApproveAction [] (lc "r1") false []).votedActions
      (lc "r1") = some Vote.approved ∧
    (handleApproveAction [] (lc "r1") false []).alerts =
      [lc "Approval failed."] := ⟨rfl, rfl⟩

/-- C8 amended: the handlers update the local status optimistically before
the external call; on failure the status is left at the optimistic value
(`approved`/`denied`, never reverted to unresolved), exactly one
resolution call was issued, no follow-up turn is synthesized, and he
failure is reported through an alert. -/
theorem spec_c8_optimistic_update (voted : List (List Char × Vote))
    (rid result : List Char) :
    (handleApproveAction voted rid false result).votedActions =
      assocInsert voted rid .approved ∧
    (handleApproveAction voted rid false result).resolutionCalls = 1 ∧
    (handleApproveAction voted rid false result).alerts = [lc "Approval failed."] ∧
    (handleApproveAction voted rid false result).followUps = [] ∧
    (handleDenyAction voted rid false).votedActions =
      assocInsert voted rid .denied ∧
    (handleDenyAction voted rid false).alerts = [lc "Denial failed."] :=
  ⟨rfl, rfl, rfl, rfl, rfl, rfl⟩

/-- C9 counterexample: invoking the approve handler for a request id whose
status is already `approved` still issues one resolution call (the
handler has no already-resolved check), falsifying "exactly zero
additional network calls". -/
theorem spec_c9_counterexample :
    (handleApproveAction [(lc "r1", Vote.approved)] (lc "r1") true
      (lc "null")).resolutionCalls = 1 := rfl

/-- C9 amended: the approve handler itself always issues exactly one
resolution call; double-invocation protection comes from the UI instead:
once a status is recorded for the request id, `PendingActionBlock` no
longer renders the Approve/Deny buttons, so no approve can be triggered
through the rendered block. -/
theorem spec_c9_ui_guard (voted : List (List Char × Vote))
    (rid result : List Char) (callOk : Bool) :
    (handleApproveAction voted rid callOk result).resolutionCalls = 1 ∧
    pendingButtonsShown
      (handleApproveAction voted rid callOk result).votedActions rid = false ∧
    pendingButtonsShown
      (handleDenyAction voted rid callOk).votedActions rid = false := by
  refine ⟨?_, ?_, ?_⟩
  · cases callOk <;> rfl
  · have h : (handleApproveAction voted rid callOk result).votedActions =
        assocInsert voted rid .approved := by cases callOk <;> rfl
    rw [h]
    unfold pendingButtonsShown
    rw [assocLookup_assocInsert]
    rfl
  · have h : (handleDenyAction voted rid callOk).votedActions =
        assocInsert voted rid .denied := by cases callOk <;> rfl
    rw [h]
    unfold pendingButtonsShown
    rw [assocLookup_assocInsert]
    rfl

/-- C7 counterexample: a buffer of 1000001 letters exceeds the tokenizer's
hard cap; the tokenizer truncates it to 1000000 characters but the
resulting segment output carries no truncation marker at all (the
`"\n...[truncated]"` marker of this codebase appears nowhere in it). -/
theorem spec_c7_counterexample :
    parseMessageContent (List.replicate 1000001 'a') =
      .ok [⟨.text, List.replicate 1000000 'a', none⟩] ∧
    ¬ lc "\n...[truncated]" <:+: List.replicate 1000000 'a' := by
  have hws : jsWs 'a' = false := by decide
  have hmRfl : ∀ t, matchHdrAt ('a' :: t) = none := fun t => rfl
  have hjRfl : ∀ t, matchJsonFragAt ('a' :: t) = none := fun t => rfl
  have hfRfl : ∀ t, matchFenceAt ('a' :: t) = none := fun t => rfl
  constructor
  · unfold parseMessageContent
    rw [if_neg ?hc]
    case hc =>
      intro hdisj
      rcases Bool.or_eq_true_iff.mp hdisj with h1 | h1
      · exact replicate_ne_nil_of_pos (by norm_num) 'a' (List.isEmpty_iff.mp h1)
      · rw [jsTrim_replicate hws] at h1
        exact replicate_ne_nil_of_pos (by norm_num) 'a' (List.isEmpty_iff.mp h1)
    have htr : jsTruncate (List.replicate 1000001 'a') =
        List.replicate 1000000 'a' := by
      unfold jsTruncate
      rw [if_pos (by rw [List.length_replicate]; norm_num [MAX_CONTENT_LENGTH])]
      rw [MAX_CONTENT_LENGTH, List.take_replicate]
      norm_num
    rw [htr]
    have hfm : findMatch (List.replicate 1000000 'a') = none := by
      apply findMatch_eq_none_of_matchAt
      intro c t hsuf
      have hmem : c ∈ List.replicate 1000000 'a' := hsuf.sublist.subset (by simp)
      rw [(List.mem_replicate.mp hmem).2]
      exact matchAt_eq_none (by decide) t
    rw [scanLoop_of_findMatch_none hfm]
    have htrail : trailingParts (List.replicate 1000000 'a') =
        [⟨.text, List.replicate 1000000 'a', none⟩] := by
      unfold trailingParts
      rw [jsTrim_replicate hws,
        isEmpty_false_of_ne_nil (replicate_ne_nil_of_pos (by norm_num) 'a')]
      rfl
    rw [htrail]
    have hsan : sanitizeText (List.replicate 1000000 'a') =
        List.replicate 1000000 'a' := by
      simp only [sanitizeText]
      rw [replaceAllGo_replicate hmRfl, replaceAllGo_replicate hjRfl,
        replaceAllGo_replicate hfRfl, jsTrim_replicate hws]
    have hclean : cleanup [⟨.text, List.replicate 1000000 'a', none⟩] =
        [⟨.text, List.replicate 1000000 'a', none⟩] := by
      unfold cleanup
      rw [List.map_cons, List.map_nil]
      have hsp : sanitizePart ⟨.text, List.replicate 1000000 'a', none⟩ =
          ⟨.text, List.replicate 1000000 'a', none⟩ := by
        unfold sanitizePart
        rw [if_pos rfl, Part.mk.injEq]
        exact ⟨rfl, hsan, rfl⟩
      rw [hsp, List.filter_cons_of_pos]
      · rw [List.filter_nil]
      · show (PartKind.text != PartKind.text ||
          !(List.replicate 1000000 'a').isEmpty) = true
        rw [isEmpty_false_of_ne_nil (replicate_ne_nil_of_pos (by norm_num) 'a')]
        rfl
    show Except.map cleanup
        (Except.ok [⟨.text, List.replicate 1000000 'a', none⟩]) = _
    simp only [Except.map]
    rw [hclean]
  · intro hinf
    have hmem : '\n' ∈ List.replicate 1000000 'a' :=
      hinf.sublist.subset (by decide)
    have hval := (List.mem_replicate.mp hmem).2
    exact absurd hval (by decide)

/-- C7 amended: the tokenizer truncates an over-long buffer to exactly
`MAX_CONTENT_LENGTH` characters and parses that prefix, with no
truncation marker of its own; the visible `"\n...[truncated]"` marker is
appended only by the streaming consumer, when the accumulated response
exceeds its separate `MAX_RESPONSE_LENGTH` cap. -/
theorem spec_c7_truncation_behavior (content s : List Char)
    (h1 : MAX_CONTENT_LENGTH < content.length)
    (h2 : jsTrim content ≠ [])
    (h3 : MAX_RESPONSE_LENGTH < s.length) :
    (jsTruncate content).length = MAX_CONTENT_LENGTH ∧
    parseMessageContent content =
      Except.map cleanup (scanLoop MAX_ITERATIONS (jsTruncate content)) ∧
    lc "\n...[truncated]" <:+ truncateResponse s := by
  refine ⟨?_, ?_, ?_⟩
  · unfold jsTruncate
    rw [if_pos h1, List.length_take]
    exact min_eq_left (Nat.le_of_lt h1)
  · unfold parseMessageContent
    rw [if_neg ?hc]
    case hc =>
      intro hdisj
      rcases Bool.or_eq_true_iff.mp hdisj with ha | ha
      · rw [List.isEmpty_iff.mp ha] at h2
        exact h2 rfl
      · exact h2 (List.isEmpty_iff.mp ha)
  · unfold truncateResponse
    rw [if_pos h3]
    exact List.suffix_append _ _

/-- C7 witness: the amended theorem applied to a 1000001-character buffer
and a 5000001-character accumulated response. -/
theorem spec_c7_witness :
    MAX_CONTENT_LENGTH < (List.replicate 1000001 'a').length ∧
    jsTrim (List.replicate 1000001 'a') ≠ [] ∧
    MAX_RESPONSE_LENGTH < (List.replicate 5000001 'b').length ∧
    lc "\n...[truncated]" <:+ truncateResponse (List.replicate 5000001 'b') := by
  have h1 : MAX_CONTENT_LENGTH < (List.replicate 1000001 'a').length := by
    rw [List.length_replicate]
    norm_num [MAX_CONTENT_LENGTH]
  have h2 : jsTrim (List.replicate 1000001 'a') ≠ [] := by
    rw [jsTrim_replicate (by decide : jsWs 'a' = false)]
    exact replicate_ne_nil_of_pos (by norm_num) 'a'
  have h3 : MAX_RESPONSE_LENGTH < (List.replicate 5000001 'b').length := by
    rw [List.length_replicate]
    norm_num [MAX_RESPONSE_LENGTH]
  exact ⟨h1, h2, h3,
    (spec_c7_truncation_behavior (List.replicate 1000001 'a')
      (List.replicate 5000001 'b') h1 h2 h3).2.2⟩

/-- C10 counterexample: for the empty buffer (explicitly covered by the
claim) the parser returns a text segment whose content is empty — an
empty, hence whitespace-only, text segment in the final list. -/
theorem spec_c10_counterexample :
    parseMessageContent [] = .ok [⟨.text, [], none⟩] ∧
    (([] : List Char).all jsWs) = true := ⟨by decide, by decide⟩

/-- C10 amended: except for empty or whitespace-only buffers — which
return a single empty text segment — the final segment list contains no
text segment that is empty or whitespace-only: every surviving text
segment was trimmed by the sanitizer and kept only if nonempty. -/
theorem spec_c10_no_blank_text_segments (content : List Char)
    (parts : List Part) (hok : parseMessageContent content = .ok parts)
    (hne : jsTrim content ≠ []) :
    ∀ p ∈ parts, p.kind = .text → p.content.all jsWs = false := by
  intro p hp hk
  unfold parseMessageContent at hok
  rw [if_neg ?hcond] at hok
  case hcond =>
    intro hdisj
    rcases Bool.or_eq_true_iff.mp hdisj with h1 | h1
    · rw [List.isEmpty_iff.mp h1] at hne
      exact hne rfl
    · exact hne (List.isEmpty_iff.mp h1)
  cases hscan : scanLoop MAX_ITERATIONS (jsTruncate content) with
  | error e =>
    rw [hscan] at hok
    exact absurd hok (by simp [Except.map])
  | ok raw =>
    rw [hscan] at hok
    have hparts : parts = cleanup raw := by
      simpa [Except.map] using hok.symm
    rw [hparts] at hp
    unfold cleanup at hp
    rcases List.mem_filter.mp hp with ⟨hpm, hpf⟩
    rcases List.mem_map.mp hpm with ⟨q, _, hqe⟩
    unfold sanitizePart at hqe
    by_cases hqk : q.kind = .text
    · rw [if_pos hqk] at hqe
      have hcont : p.content = sanitizeText q.content := by
        rw [← hqe]
      have hne2 : p.content ≠ [] := by
        intro hnil
        rw [hk, hnil] at hpf
        exact absurd hpf (by decide)
      rcases sanitizeText_is_trim q.content with ⟨u, hu⟩
      rw [hcont, hu] at hne2 ⊢
      exact jsTrim_all_false hne2
    · rw [if_neg hqk] at hqe
      rw [hqe] at hqk
      exact absurd hk hqk

/-- C10 witness: the amended theorem applied to the buffer `" x "`. -/
theorem spec_c10_witness :
    jsTrim (lc " x ") ≠ [] ∧
    ∀ p ∈ ([⟨.text, lc "x", none⟩] : List Part), p.kind = .text →
      p.content.all jsWs = false :=
  ⟨by decide,
   spec_c10_no_blank_text_segments (lc " x ") [⟨.text, lc "x", none⟩]
     (by decide) (by decide)⟩

/-- `dropWhile` keeps a list whose head fails the predicate. -/
theorem dropWhile_eq_self_of_head (p : Char → Bool) (l : List Char)
    (h : ∀ c, l.head? = some c → p c = false) : l.dropWhile p = l := by
  cases l with
  | nil => rfl
  | cons c t =>
    rw [List.dropWhile_cons, if_neg]
    rw [h c rfl]
    simp

/-- The attribute capture runs exactly up to the first `>`. -/
theorem takeWhile_append_stop (attrs body : List Char) (h : '>' ∉ attrs) :
    (attrs ++ '>' :: body).takeWhile (· ≠ '>') = attrs := by
  induction attrs with
  | nil => simp [List.takeWhile_cons]
  | cons c t ih =>
    have hc : c ≠ '>' := fun he => h (he ▸ List.mem_cons_self c t)
    simp only [List.cons_append, List.takeWhile_cons]
    rw [if_pos (by simp [hc]), ih (fun hm => h (List.mem_cons_of_mem c hm))]

/-- The scan past the attribute capture lands on the first `>`. -/
theorem dropWhile_append_stop (attrs body : List Char) (h : '>' ∉ attrs) :
    (attrs ++ '>' :: body).dropWhile (· ≠ '>') = '>' :: body := by
  induction attrs with
  | nil => simp [List.dropWhile_cons]
  | cons c t ih =>
    have hc : c ≠ '>' := fun he => h (he ▸ List.mem_cons_self c t)
    simp only [List.cons_append, List.dropWhile_cons]
    rw [if_pos (by simp [hc]), ih (fun hm => h (List.mem_cons_of_mem c hm))]

/-- The `(?:\\s+([^>]*?))?>` scan on a single space, a `>`-free attribute
string and the closing `>`. -/
theorem tryAttrs_tool (attrs body : List Char)
    (hhead : ∀ c, attrs.head? = some c → jsWs c = false)
    (hgt : '>' ∉ attrs) :
    tryAttrs (' ' :: (attrs ++ '>' :: body)) = some (some attrs, body) := by
  simp only [tryAttrs]
  rw [if_neg (by decide), if_pos (by decide)]
  have hdw : (' ' :: (attrs ++ '>' :: body)).dropWhile jsWs = attrs ++ '>' :: body := by
    rw [List.dropWhile_cons, if_pos (by decide)]
    apply dropWhile_eq_self_of_head
    intro c hc
    cases attrs with
    | nil =>
      simp at hc
      rw [← hc]
      decide
    | cons a t =>
      simp at hc
      exact hc ▸ hhead a rfl
  rw [hdw, dropWhile_append_stop attrs body hgt, takeWhile_append_stop attrs body hgt]
theorem pickName_tool (attrs body : List Char)
    (hhead : ∀ c, attrs.head? = some c → jsWs c = false)
    (hgt : '>' ∉ attrs) :
    pickName tagNames (lc "tool" ++ ' ' :: (attrs ++ '>' :: body)) =
      some (lc "tool", some attrs, body) := by
  have h1 : (lc "thought").isPrefixOf (lc "tool" ++ ' ' :: (attrs ++ '>' :: body)) = false := rfl
  have h2 : (lc "think").isPrefixOf (lc "tool" ++ ' ' :: (attrs ++ '>' :: body)) = false := rfl
  have h3 : (lc "tool_call").isPrefixOf (lc "tool" ++ ' ' :: (attrs ++ '>' :: body)) = false := rfl
  have h4 : (lc "tool_pending").isPrefixOf (lc "tool" ++ ' ' :: (attrs ++ '>' :: body)) = false := rfl
  have h5 : (lc "tool_result").isPrefixOf (lc "tool" ++ ' ' :: (attrs ++ '>' :: body)) = false := rfl
  unfold tagNames pickName
  rw [h1]
  simp only [Bool.false_eq_true, if_false]
  unfold pickName
  rw [h2]
  simp only [Bool.false_eq_true, if_false]
  unfold pickName
  rw [h3]
  simp only [Bool.false_eq_true, if_false]
  unfold pickName
  rw [h4]
  simp only [Bool.false_eq_true, if_false]
  unfold pickName
  rw [h5]
  simp only [Bool.false_eq_true, if_false]
  unfold pickName
  rw [isPrefixOf_self_append, if_pos rfl, List.drop_left,
    tryAttrs_tool attrs body hhead hgt]

/-- `TAG_REGEX` anchored on a whole `<tool attrs>inner</tool>` buffer. -/
theorem matchAt_tool (attrs inner : List Char)
    (hhead : ∀ c, attrs.head? = some c → jsWs c = false)
    (hgt : '>' ∉ attrs)
    (hscan : contentScan (lc "tool") (inner ++ lc "</tool>") =
      some (inner, true, [])) :
    matchAt ('<' :: (lc "tool" ++ ' ' :: (attrs ++ '>' :: (inner ++ lc "</tool>")))) =
      some ({ full := '<' :: (lc "tool" ++ ' ' :: (attrs ++ '>' :: (inner ++ lc "</tool>"))),
              g1 := some (lc "tool"), g2 := some attrs, g3 := some inner,
              g4 := none, g5 := none }, []) := by
  simp only [matchAt, if_true]
  rw [pickName_tool attrs _ hhead hgt]
  simp only []
  rw [hscan]
  simp only [List.length_nil, Nat.sub_zero, List.take_length]

/-- The scan finds the tool tag of `matchAt_tool` at offset zero. -/
theorem findMatch_tool (attrs inner : List Char)
    (hhead : ∀ c, attrs.head? = some c → jsWs c = false)
    (hgt : '>' ∉ attrs)
    (hscan : contentScan (lc "tool") (inner ++ lc "</tool>") =
      some (inner, true, [])) :
    findMatch ('<' :: (lc "tool" ++ ' ' :: (attrs ++ '>' :: (inner ++ lc "</tool>")))) =
      some ([], { full := '<' :: (lc "tool" ++ ' ' :: (attrs ++ '>' :: (inner ++ lc "</tool>"))),
                  g1 := some (lc "tool"), g2 := some attrs, g3 := some inner,
                  g4 := none, g5 := none }, []) := by
  unfold findMatch
  rw [matchAt_tool attrs inner hhead hgt hscan]

/-- The loop body on a `tool` match defers to `toolContentOf`. -/
theorem segmentsFor_tool (full attrs inner : List Char) :
    segmentsFor { full := full, g1 := some (lc "tool"), g2 := some attrs,
                  g3 := some inner, g4 := none, g5 := none } =
      .ok [⟨.tool, toolContentOf (lc "tool") attrs inner, none⟩] := by
  unfold segmentsFor
  rw [show jsOr2 (some (lc "tool")) none = some (lc "tool") from rfl]
  simp only []
  rw [if_neg (by decide), if_pos (Or.inr trivial)]
  rfl

/-- A `tool` tag with `name=` in its attributes and a non-JSON inner text
gets the synthesized `{name, arguments}` JSON. -/
theorem toolContentOf_synth (attrs inner : List Char)
    (hname : containsSub (lc "name=") attrs = true)
    (hbrace : ¬(jsTrim inner).head? = some cLb) :
    toolContentOf (lc "tool") attrs inner = jsonStringify 4 (Json.jobj
      [(lc "name", Json.jstr ((getAttr (lc "name") attrs).getD (lc "unknown"))),
       (lc "arguments", Json.jobj
         ((toolArgsOf inner).map (fun kv => (kv.1, Json.jstr kv.2))))]) := by
  unfold toolContentOf
  rw [if_pos ⟨rfl, hname⟩, if_pos (by simp [hbrace])]
theorem spec_c4_tool_name_attr_synthesizes (attrs inner : List Char)
    (hhead : ∀ c, attrs.head? = some c → jsWs c = false)
    (hgt : '>' ∉ attrs)
    (hscan : contentScan (lc "tool") (inner ++ lc "</tool>") =
      some (inner, true, []))
    (hname : containsSub (lc "name=") attrs = true)
    (hbrace : ¬(jsTrim inner).head? = some cLb)
    (hlen : attrs.length + inner.length ≤ 999986) :
    parseMessageContent
      ('<' :: (lc "tool" ++ ' ' :: (attrs ++ '>' :: (inner ++ lc "</tool>")))) =
      .ok [⟨.tool, jsonStringify 4 (Json.jobj
        [(lc "name", Json.jstr ((getAttr (lc "name") attrs).getD (lc "unknown"))),
         (lc "arguments", Json.jobj
           ((toolArgsOf inner).map (fun kv => (kv.1, Json.jstr kv.2))))]),
        none⟩] := by
  unfold parseMessageContent
  rw [if_neg ?hc]
  case hc =>
    intro hdisj
    rcases Bool.or_eq_true_iff.mp hdisj with h1 | h1
    · exact absurd (List.isEmpty_iff.mp h1) (by simp)
    · exact jsTrim_ne_nil_of_mem (List.mem_cons_self _ _) (by decide)
        (List.isEmpty_iff.mp h1)
  have htr : jsTruncate ('<' :: (lc "tool" ++ ' ' :: (attrs ++ '>' :: (inner ++ lc "</tool>")))) =
      '<' :: (lc "tool" ++ ' ' :: (attrs ++ '>' :: (inner ++ lc "</tool>"))) := by
    unfold jsTruncate
    rw [if_neg]
    intro hgt2
    simp [List.length_cons, List.length_append, lc] at hgt2
    norm_num [MAX_CONTENT_LENGTH] at hgt2
    omega
  rw [htr]
  rw [show MAX_ITERATIONS = 9999 + 1 from by norm_num [MAX_ITERATIONS]]
  rw [scanLoop_single 9999 (findMatch_tool attrs inner hhead hgt hscan) (by simp)
    (by rw [segmentsFor_tool, toolContentOf_synth attrs inner hname hbrace])]
  simp only [Except.map]
  rw [cleanup_nontext_single _ (by rfl)]

/-- C4 witness: the amended theorem at the claim's concrete example,
evaluating the synthesized content to its literal JSON string. -/
theorem spec_c4_witness :
    containsSub (lc "name=") (lc "name=\"file\"") = true ∧
    ¬(jsTrim (lc "<argument name=\"path\" value=\"a.txt\"/>")).head? = some cLb ∧
    parseMessageContent
      (lc "<tool name=\"file\"><argument name=\"path\" value=\"a.txt\"/></tool>") =
      .ok [⟨.tool, lc "\x7b\"name\":\"file\",\"arguments\":\x7b\"path\":\"a.txt\"\x7d\x7d", none⟩] := by
  refine ⟨by decide, by decide, ?_⟩
  have h := spec_c4_tool_name_attr_synthesizes (lc "name=\"file\"")
    (lc "<argument name=\"path\" value=\"a.txt\"/>")
    (by intro c hc; simp [lc] at hc; rw [← hc]; decide)
    (by decide) (by decide) (by decide) (by decide) (by decide)
  exact h.trans (by decide)

/-! ### Source-order of emitted segments (claim C2)
The scan emits, per iteration, the before-text (if kept), then the tag
segments, then recurses on the remainder; positions annotate where each
emitted part starts in the scanned buffer.  The lemmas below bound the
lengths consumed, project the annotated scan back onto the plain one, and
show the annotated positions are strictly increasing. -/

/-- A successful content scan leaves a remainder no longer than the input. -/
theorem contentScan_rest_le (T : List Char) (u : List Char) :
    ∀ i cl r, contentScan T u = some (i, cl, r) → r.length ≤ u.length := by
  induction u with
  | nil =>
    intro i cl r h
    simp [contentScan] at h
    rw [← h.2.2]
  | cons c t ih =>
    intro i cl r h
    simp only [contentScan] at h
    split at h
    · split at h
      · simp only [Option.some.injEq, Prod.mk.injEq] at h
        rw [← h.2.2, List.length_drop]
        simp [List.length_cons]
        omega
      · split at h
        · exact absurd h (by simp)
        · cases hcs : contentScan T t with
          | none => rw [hcs] at h; simp at h
          | some val =>
            obtain ⟨i2, cl2, r2⟩ := val
            rw [hcs] at h
            simp only [Option.map_some', Option.some.injEq, Prod.mk.injEq] at h
            rw [← h.2.2]
            exact Nat.le_trans (ih i2 cl2 r2 hcs) (by simp)
    · cases hcs : contentScan T t with
      | none => rw [hcs] at h; simp at h
      | some val =>
        obtain ⟨i2, cl2, r2⟩ := val
        rw [hcs] at h
        simp only [Option.map_some', Option.some.injEq, Prod.mk.injEq] at h
        rw [← h.2.2]
        exact Nat.le_trans (ih i2 cl2 r2 hcs) (by simp)
theorem tryAttrs_rest_le (a : List Char) (attrs : Option (List Char))
    (g : List Char) (h : tryAttrs a = some (attrs, g)) : g.length ≤ a.length := by
  cases a with
  | nil => exact absurd h (by simp [tryAttrs])
  | cons c t =>
    simp only [tryAttrs] at h
    split at h
    · simp only [Option.some.injEq, Prod.mk.injEq] at h
      rw [← h.2]
      simp [List.length_cons]
    · split at h
      · split at h
        · rename_i r2 heq
          simp only [Option.some.injEq, Prod.mk.injEq] at h
          rw [← h.2]
          have h1 : (List.dropWhile (fun x => decide (x ≠ '>'))
              ((c :: t).dropWhile jsWs)).length ≤ ((c :: t).dropWhile jsWs).length :=
            (List.dropWhile_sublist _).length_le
          have h2 : ((c :: t).dropWhile jsWs).length ≤ (c :: t).length :=
            (List.dropWhile_sublist _).length_le
          rw [heq] at h1
          simp [List.length_cons] at h1 h2 ⊢
          omega
        · exact absurd h (by simp)
      · exact absurd h (by simp)

theorem pickName_rest_le (names : List (List Char)) (s1 : List Char) :
    ∀ T attrs g, pickName names s1 = some (T, attrs, g) → g.length ≤ s1.length := by
  induction names with
  | nil => intro T attrs g h; exact absurd h (by simp [pickName])
  | cons T0 ns ih =>
    intro T attrs g h
    simp only [pickName] at h
    split at h
    · cases htr : tryAttrs (List.drop T0.length s1) with
      | none =>
        rw [htr] at h
        exact ih T attrs g h
      | some pr =>
        obtain ⟨a0, g0⟩ := pr
        rw [htr] at h
        simp only [Option.some.injEq, Prod.mk.injEq] at h
        rw [← h.2.2]
        exact Nat.le_trans (tryAttrs_rest_le _ _ _ htr)
          (by simp [List.length_drop])
    · exact ih T attrs g h

theorem selfCloseScan_rest_le (u : List Char) :
    ∀ acc b r, selfCloseScan acc u = some (b, r) → r.length ≤ u.length := by
  induction u with
  | nil => intro acc b r h; exact absurd h (by simp [selfCloseScan])
  | cons c t ih =>
    intro acc b r h
    simp only [selfCloseScan] at h
    split at h
    · simp only [Option.some.injEq, Prod.mk.injEq] at h
      rw [← h.2]
      have h2 : ((c :: t).dropWhile jsWs).length ≤ (c :: t).length :=
        (List.dropWhile_sublist _).length_le
      simp [List.length_drop, List.length_cons] at h2 ⊢
      omega
    · split at h
      · exact absurd h (by simp)
      · exact Nat.le_trans (ih (acc ++ [c]) b r h) (by simp)

theorem matchAlt2_rest_le (s1 : List Char) (b r : List Char)
    (h : matchAlt2 s1 = some (b, r)) : r.length ≤ s1.length := by
  unfold matchAlt2 at h
  split at h
  · split at h
    · exact absurd h (by simp)
    · split at h
      · have hle := selfCloseScan_rest_le _ _ _ _ h
        have h2 : ((s1.drop 12).dropWhile jsWs).length ≤ (s1.drop 12).length :=
          (List.dropWhile_sublist _).length_le
        have h3 : (s1.drop 12).length ≤ s1.length := by
          simp [List.length_drop]
        omega
      · exact absurd h (by simp)
  · exact absurd h (by simp)
theorem take_ne_nil_of_pos {k : Nat} (hk : 0 < k) (c : Char) (t : List Char) :
    List.take k (c :: t) ≠ [] := by
  obtain ⟨m, hm⟩ := Nat.exists_eq_add_of_lt hk
  rw [hm]
  simp [List.take_cons]

theorem matchAt_full_ne_nil (s : List Char) (md : TagMatch) (rest : List Char)
    (h : matchAt s = some (md, rest)) : md.full ≠ [] ∧ rest.length < s.length := by
  cases s with
  | nil => exact absurd h (by simp [matchAt])
  | cons c s1 =>
    simp only [matchAt] at h
    split at h
    · cases hp : pickName tagNames s1 with
      | some pr =>
        obtain ⟨T, attrs, afterGt⟩ := pr
        rw [hp] at h
        simp only [] at h
        have hpick := pickName_rest_le tagNames s1 T attrs afterGt hp
        cases hcs : contentScan T afterGt with
        | some val =>
          obtain ⟨inner, closed, rest2⟩ := val
          rw [hcs] at h
          have hcsle := contentScan_rest_le T afterGt inner closed rest2 hcs
          simp only [Option.some.injEq, Prod.mk.injEq] at h
          obtain ⟨hmd, hrest⟩ := h
          refine ⟨?_, ?_⟩
          · rw [← hmd]
            subst hrest
            exact take_ne_nil_of_pos (by simp [List.length_cons]; omega) c s1
          · subst hrest
            simp [List.length_cons]
            omega
        | none =>
          rw [hcs] at h
          simp only [Option.some.injEq, Prod.mk.injEq] at h
          obtain ⟨hmd, hrest⟩ := h
          refine ⟨?_, ?_⟩
          · rw [← hmd]
            subst hrest
            exact take_ne_nil_of_pos (by simp [List.length_cons]; omega) c s1
          · subst hrest
            simp [List.length_cons]
            omega
      | none =>
        rw [hp] at h
        simp only [] at h
        cases ha2 : matchAlt2 s1 with
        | some pr =>
          obtain ⟨b, rest2⟩ := pr
          rw [ha2] at h
          have ha2le := matchAlt2_rest_le s1 b rest2 ha2
          simp only [Option.some.injEq, Prod.mk.injEq] at h
          obtain ⟨hmd, hrest⟩ := h
          refine ⟨?_, ?_⟩
          · rw [← hmd]
            subst hrest
            exact take_ne_nil_of_pos (by simp [List.length_cons]; omega) c s1
          · subst hrest
            simp [List.length_cons]
            omega
        | none =>
          rw [ha2] at h
          exact absurd h (by simp)
    · exact absurd h (by simp)

theorem findMatch_full_ne_nil (s : List Char) :
    ∀ pre md rest, findMatch s = some (pre, md, rest) → md.full ≠ [] := by
  induction s with
  | nil => intro pre md rest h; exact absurd h (by simp [findMatch])
  | cons c t ih =>
    intro pre md rest h
    simp only [findMatch] at h
    cases hm : matchAt (c :: t) with
    | some pr =>
      obtain ⟨md0, rest0⟩ := pr
      rw [hm] at h
      simp only [Option.some.injEq, Prod.mk.injEq] at h
      rw [← h.2.1]
      exact (matchAt_full_ne_nil (c :: t) md0 rest0 hm).1
    | none =>
      rw [hm] at h
      cases hf : findMatch t with
      | some pr =>
        obtain ⟨pre0, md0, rest0⟩ := pr
        rw [hf] at h
        simp only [Option.some.injEq, Prod.mk.injEq] at h
        rw [← h.2.1]
        exact ih pre0 md0 rest0 hf
      | none =>
        rw [hf] at h
        exact absurd h (by simp)

theorem pendingAssemble_length_le (a b c d : Option (List Char)) :
    (pendingAssemble a b c d).length ≤ 1 := by
  unfold pendingAssemble
  split
  · dsimp only
    split <;> simp
  · simp

theorem segmentsFor_length_le (md : TagMatch) (segs : List Part)
    (h : segmentsFor md = .ok segs) : segs.length ≤ 1 := by
  unfold segmentsFor at h
  cases hty : jsOr2 md.g1 md.g4 with
  | none =>
    rw [hty] at h
    simp only [Except.ok.injEq] at h
    rw [← h]
    simp
  | some ty =>
    rw [hty] at h
    simp only [] at h
    split at h
    · simp only [Except.ok.injEq] at h
      rw [← h]
      simp
    · split at h
      · simp only [Except.ok.injEq] at h
        rw [← h]
        simp
      · split at h
        · cases htc : jsOr2 md.g2 md.g5 with
          | none => rw [htc] at h; exact absurd h (by simp)
          | some tc =>
            rw [htc] at h
            simp only [Except.ok.injEq] at h
            rw [← h]
            exact pendingAssemble_length_le _ _ _ _
        · split at h
          · simp only [Except.ok.injEq] at h
            rw [← h]
            simp
          · split at h
            · simp only [Except.ok.injEq] at h
              rw [← h]
              simp
            · simp only [Except.ok.injEq] at h
              rw [← h]
              simp

theorem trailingPos_proj (pos : Nat) (s : List Char) :
    (trailingPos pos s).map Prod.snd = trailingParts s := by
  unfold trailingPos trailingParts
  split <;> simp

theorem beforePos_proj (pos : Nat) (pre : List Char) :
    (beforePos pos pre).map Prod.snd = beforeParts pre := by
  unfold beforePos beforeParts
  split <;> simp
theorem scanLoopPos_proj (fuel : Nat) :
    ∀ pos s, scanLoop fuel s = (scanLoopPos fuel pos s).map (List.map Prod.snd) := by
  induction fuel with
  | zero =>
    intro pos s
    show Except.ok (trailingParts s) = _
    simp [scanLoopPos, Except.map, trailingPos_proj]
  | succ f ih =>
    intro pos s
    simp only [scanLoop, scanLoopPos]
    cases hfm : findMatch s with
    | none => simp [Except.map, trailingPos_proj]
    | some pr =>
      obtain ⟨pre, md, rest⟩ := pr
      simp only []
      split
      · exact ih (pos + 1) (s.drop 1)
      · cases hseg : segmentsFor md with
        | error e => simp [Except.map]
        | ok segs =>
          rw [ih (pos + pre.length + md.full.length) rest]
          cases hrec : scanLoopPos f (pos + pre.length + md.full.length) rest with
          | error e => simp [Except.map]
          | ok tail =>
            simp only [Except.map, List.map_append, List.map_map]
            rw [beforePos_proj]
            congr 1
            congr 1
            simp
theorem cleanupPos_proj (l : List (Nat × Part)) :
    cleanup (l.map Prod.snd) = (cleanupPos l).map Prod.snd := by
  unfold cleanup cleanupPos
  induction l with
  | nil => rfl
  | cons np t ih =>
    simp only [List.map_cons, List.filter_cons]
    cases hb : ((sanitizePart np.2).kind != PartKind.text ||
        !(sanitizePart np.2).content.isEmpty) with
    | true =>
      simp only [eq_self_iff_true, if_true, List.map_cons]
      rw [ih]
    | false =>
      simp only [Bool.false_eq_true, if_false]
      exact ih

theorem scanLoopPos_lb (fuel : Nat) :
    ∀ pos s l, scanLoopPos fuel pos s = .ok l → ∀ np ∈ l, pos ≤ np.1 := by
  induction fuel with
  | zero =>
    intro pos s l h np hmem
    simp only [scanLoopPos, Except.ok.injEq] at h
    rw [← h] at hmem
    unfold trailingPos at hmem
    split at hmem
    · simp at hmem
    · simp at hmem
      rw [hmem]
  | succ f ih =>
    intro pos s l h np hmem
    simp only [scanLoopPos] at h
    cases hfm : findMatch s with
    | none =>
      rw [hfm] at h
      simp only [Except.ok.injEq] at h
      rw [← h] at hmem
      unfold trailingPos at hmem
      split at hmem
      · simp at hmem
      · simp at hmem
        rw [hmem]
    | some pr =>
      obtain ⟨pre, md, rest⟩ := pr
      rw [hfm] at h
      simp only [] at h
      split at h
      · exact Nat.le_trans (Nat.le_succ pos) (ih (pos + 1) (s.drop 1) l h np hmem)
      · cases hseg : segmentsFor md with
        | error e => rw [hseg] at h; exact absurd h (by simp)
        | ok segs =>
          rw [hseg] at h
          cases hrec : scanLoopPos f (pos + pre.length + md.full.length) rest with
          | error e => rw [hrec] at h; exact absurd h (by simp)
          | ok tail =>
            rw [hrec] at h
            simp only [Except.ok.injEq] at h
            rw [← h] at hmem
            rcases List.mem_append.mp hmem with h1 | h1
            · rcases List.mem_append.mp h1 with h2 | h2
              · unfold beforePos at h2
                split at h2
                · simp at h2
                · simp at h2
                  rw [h2]
              · rcases List.mem_map.mp h2 with ⟨p, -, hpe⟩
                rw [← hpe]
                exact Nat.le_add_right pos pre.length
            · have := ih (pos + pre.length + md.full.length) rest tail hrec np h1
              omega
theorem scanLoopPos_pairwise (fuel : Nat) :
    ∀ pos s l, scanLoopPos fuel pos s = .ok l →
      l.Pairwise (fun a b => a.1 < b.1) := by
  induction fuel with
  | zero =>
    intro pos s l h
    simp only [scanLoopPos, Except.ok.injEq] at h
    rw [← h]
    unfold trailingPos
    split
    · exact List.Pairwise.nil
    · exact List.pairwise_singleton _ _
  | succ f ih =>
    intro pos s l h
    simp only [scanLoopPos] at h
    cases hfm : findMatch s with
    | none =>
      rw [hfm] at h
      simp only [Except.ok.injEq] at h
      rw [← h]
      unfold trailingPos
      split
      · exact List.Pairwise.nil
      · exact List.pairwise_singleton _ _
    | some pr =>
      obtain ⟨pre, md, rest⟩ := pr
      rw [hfm] at h
      simp only [] at h
      split at h
      · exact ih (pos + 1) (s.drop 1) l h
      · cases hseg : segmentsFor md with
        | error e => rw [hseg] at h; exact absurd h (by simp)
        | ok segs =>
          rw [hseg] at h
          cases hrec : scanLoopPos f (pos + pre.length + md.full.length) rest with
          | error e => rw [hrec] at h; exact absurd h (by simp)
          | ok tail =>
            rw [hrec] at h
            simp only [Except.ok.injEq] at h
            rw [← h]
            have hfull : 0 < md.full.length := by
              have hne := findMatch_full_ne_nil s pre md rest hfm
              cases hful : md.full with
              | nil => exact absurd hful hne
              | cons a b => simp
            have htail_lb := scanLoopPos_lb f (pos + pre.length + md.full.length)
              rest tail hrec
            have hlen := segmentsFor_length_le md segs hseg
            rw [List.pairwise_append]
            refine ⟨?_, ih _ _ _ hrec, ?_⟩
            · rw [List.pairwise_append]
              refine ⟨?_, ?_, ?_⟩
              · unfold beforePos
                split
                · exact List.Pairwise.nil
                · exact List.pairwise_singleton _ _
              · cases segs with
                | nil => exact List.Pairwise.nil
                | cons p ps =>
                  cases ps with
                  | nil => exact List.pairwise_singleton _ _
                  | cons q qs =>
                    exfalso
                    simp [List.length_cons] at hlen
              · intro a ha b hb
                unfold beforePos at ha
                split at ha
                · simp at ha
                · rename_i hpre
                  simp at ha
                  have hprene : pre ≠ [] := by
                    intro hp
                    exact hpre (by rw [hp]; rfl)
                  have hprelen : 0 < pre.length := List.length_pos.mpr hprene
                  rcases List.mem_map.mp hb with ⟨p, -, hpe⟩
                  rw [ha, ← hpe]
                  simp only []
                  omega
            · intro a ha b hb
              have hbl := htail_lb b hb
              rcases List.mem_append.mp ha with h1 | h1
              · unfold beforePos at h1
                split at h1
                · simp at h1
                · simp at h1
                  rw [h1]
                  simp only []
                  omega
              · rcases List.mem_map.mp h1 with ⟨p, -, hpe⟩
                rw [← hpe]
                simp only []
                omega


theorem cleanupPos_pairwise (l : List (Nat × Part))
    (h : l.Pairwise (fun a b => a.1 < b.1)) :
    (cleanupPos l).Pairwise (fun a b => a.1 < b.1) := by
  unfold cleanupPos
  apply List.Pairwise.sublist (List.filter_sublist _)
  rw [List.pairwise_map]
  exact h.imp (fun hab => hab)

/-- C2: segments appear in the decoded list in the order of their source
spans in the buffer.  `parseMessageContentPos` is `parseMessageContent`
with each part annotated by the buffer index its source span starts at:
the plain parse is the position-erasure of the annotated one, and every
successfully decoded annotated list has strictly increasing positions, so
the emitted segments are in source order (text runs interleaved with tag
segments exactly as they occur, with no reordering). -/
theorem spec_c2_segments_in_source_order (content : List Char) :
    parseMessageContent content =
      Except.map (List.map Prod.snd) (parseMessageContentPos content) ∧
    (∀ l, parseMessageContentPos content = .ok l →
      l.Pairwise (fun a b => a.1 < b.1)) := by
  constructor
  · unfold parseMessageContent parseMessageContentPos
    by_cases hc : (content.isEmpty || (jsTrim content).isEmpty) = true
    · rw [if_pos hc, if_pos hc]
      simp [Except.map]
    · rw [if_neg hc, if_neg hc]
      rw [scanLoopPos_proj MAX_ITERATIONS 0 (jsTruncate content)]
      cases h : scanLoopPos MAX_ITERATIONS 0 (jsTruncate content) with
      | error e => simp [Except.map]
      | ok l0 =>
        simp only [Except.map]
        rw [cleanupPos_proj]
  · intro l h
    unfold parseMessageContentPos at h
    split at h
    · simp only [Except.ok.injEq] at h
      rw [← h]
      exact List.pairwise_singleton _ _
    · cases hs : scanLoopPos MAX_ITERATIONS 0 (jsTruncate content) with
      | error e =>
        rw [hs] at h
        exact absurd h (by simp [Except.map])
      | ok l0 =>
        rw [hs] at h
        simp only [Except.map, Except.ok.injEq] at h
        rw [← h]
        exact cleanupPos_pairwise l0
          (scanLoopPos_pairwise MAX_ITERATIONS 0 _ l0 hs)

/-- C2 witness: on `"Hello <thought>hi</thought> world"` the annotated
parse succeeds with positions 0 (text before the tag), 6 (the thought
tag) and 27 (text after it), and that list is strictly increasing. -/
theorem spec_c2_witness :
    parseMessageContentPos (lc "Hello <thought>hi</thought> world") =
      .ok [(0, ⟨.text, lc "Hello", none⟩),
        (6, ⟨.thought, lc "hi", some false⟩),
        (27, ⟨.text, lc "world", none⟩)] ∧
    [((0 : Nat), Part.mk .text (lc "Hello") none),
        (6, ⟨.thought, lc "hi", some false⟩),
        (27, ⟨.text, lc "world", none⟩)].Pairwise (fun a b => a.1 < b.1) :=
  ⟨by decide,
   (spec_c2_segments_in_source_order
      (lc "Hello <thought>hi</thought> world")).2 _ (by decide)⟩

end PromptManager
